import Mathlib

/- Verification of the Sudoku constraint-propagation engine in src/sudoku.py
   (class SudokuCSP).  The Python program is embedded shallowly: the mutable
   dictionary self.var_doms becomes a function from cell names to finite
   candidate sets, in-place set mutation becomes functional update, and each
   technique's loops become folds that thread the store, the anyChange flag
   and a count of the print statements executed (verbose output is modelled
   by counting the prints, since their text never feeds back into the state). -/

namespace Sudoku

/-- A domain store: the Python dict `self.var_doms` mapping each cell name to
its current candidate set. -/
abbrev Store := String → Finset ℕ

/-- Dict entry assignment, `self.var_doms[k] = d` (also used for in-place
mutation of the set stored at key `k`). -/
def setDom (s : Store) (k : String) (d : Finset ℕ) : Store :=
  fun k2 => if k2 = k then d else s k2

/-- Python `self.cols = "ABCDEFGHI"`, as the list of its characters. -/
def cols : List Char := ['A', 'B', 'C', 'D', 'E', 'F', 'G', 'H', 'I']

/-- Python `self.rows = range(1, 10)`. -/
def rows : List ℕ := List.range' 1 9

/-- Python f-string `f"{c}{r}"` building a cell name from a column letter and
a row number. -/
def cellName (c : Char) (r : ℕ) : String := String.mk [c] ++ toString r

/-- Python `self.cell_keys`: for each (row, col) of `product(rows, cols)` the
name `f"{col}{row}"`, i.e. "A1", "B1", ..., "I1", "A2", ... -/
def cell_keys : List String := rows.flatMap (fun r => cols.map (fun c => cellName c r))

/-- Initial domains `{key: set(range(1, 10)) for key in self.cell_keys}`:
every cell starts with the full candidate set {1..9}. -/
def init_doms : Store := fun _ => (List.range' 1 9).toFinset

/-- Python `_def_rows_constraints`: row group i is `[f"{c}{i}" for c in cols]`. -/
def rows_constraints : List (List String) :=
  rows.map (fun i => cols.map (fun c => cellName c i))

/-- Python `_def_cols_constraints`: column group c is `[f"{c}{i}" for i in rows]`. -/
def cols_constraints : List (List String) :=
  cols.map (fun c => rows.map (fun i => cellName c i))

/-- Python `_def_boxes_constraints`: box (i, j) collects
`f"{cols[i*3+x]}{rows_list[j*3+y]}"` for x, y in range(3). -/
def boxes_constraints : List (List String) :=
  (List.range 3).flatMap (fun i => (List.range 3).map (fun j =>
    (List.range 3).flatMap (fun x => (List.range 3).map (fun y =>
      cellName (cols.getD (i * 3 + x) 'A') (rows.getD (j * 3 + y) 0)))))

/-- Python `self.varsGroups`: rows, then columns, then boxes. -/
def varsGroups : List (List String) :=
  rows_constraints ++ cols_constraints ++ boxes_constraints

/-- Result of one line `valor = f.readline().strip()` followed by the test
`valor.isdigit() and len(valor) == 1 and valor != '0'`; `some d` is the given
digit, `none` means the cell keeps its default domain. -/
def parseCell (valor : String) : Option ℕ :=
  match valor.toList with
  | [c] => if c.isDigit ∧ c ≠ '0' then some (c.toNat - '0'.toNat) else none
  | _ => none

/-- The loop body of `load_board`: read one line per cell key in order; the
file is given as the list of its already-stripped lines (`strip()` removes
the newline), and `readline()` past end of file returns the empty string,
which fails the digit test, so the cell silently keeps its current (default)
domain. -/
def load_cells : List String → List String → Store → Store
  | [], _, st => st
  | key :: keys, lines, st =>
    match parseCell (lines.headD "") with
    | some d => load_cells keys lines.tail (setDom st key {d})
    | none => load_cells keys lines.tail st

/-- Python `load_board` applied to the contents of an existing, readable file,
given as its list of lines: overwrite the default domains with the parsed
givens. -/
def load_board (lines : List String) : Store := load_cells cell_keys lines init_doms

/-- Error outcomes of `load_board`: `FileNotFoundError` is caught and reported
as "board not found", any other exception as a read error; both call exit(). -/
inductive LoadErr
  | notFound
  | readError
deriving DecidableEq

/-- Whole loading step: a missing file (`none`) is fatal; an existing file is
parsed by `load_board`, which itself never raises for any line list. -/
def loadBoardFile : Option (List String) → Except LoadErr Store
  | none => Except.error LoadErr.notFound
  | some lines => Except.ok (load_board lines)

/-- Python `is_solved`: scan all domains and return False as soon as one has
`len(domain) > 1`; otherwise return True. -/
def is_solved (s : Store) : Bool :=
  cell_keys.all (fun k => !(decide (1 < (s k).card)))

/-- Result of one technique invocation: the store after the in-place
mutations, the returned anyChange flag, and the number of print statements
executed (the only effect of the verbose flag). -/
structure TRes where
  store : Store
  changed : Bool
  prints : ℕ

/-- The single element of a singleton domain, `list(domain)[0]` when
`len(domain) == 1`. -/
def theVal (d : Finset ℕ) : ℕ := d.min.untop' 0

/-- Inner loop of `_all_dif`: for each `var2` of the group, if `var2` differs
from the fixed cell `x` and still holds the fixed value `v`, print (verbose)
and discard `v` from its domain, recording the change. -/
def allDifInnerStep (vb : Bool) (x : String) (v : ℕ) (acc : TRes) (y : String) : TRes :=
  if x ≠ y ∧ v ∈ acc.store y then
    ⟨setDom acc.store y ((acc.store y).erase v), true,
      acc.prints + (if vb then 1 else 0)⟩
  else acc

/-- Outer loop body of `_all_dif`: if the visited cell's domain currently has
exactly one value, print (verbose) and sweep the group removing that value
from every other cell. -/
def allDifStep (vb : Bool) (g : List String) (acc : TRes) (x : String) : TRes :=
  if (acc.store x).card = 1 then
    g.foldl (allDifInnerStep vb x (theVal (acc.store x)))
      ⟨acc.store, acc.changed, acc.prints + (if vb then 1 else 0)⟩
  else acc

/-- Python `_all_dif(vars_group, verbose)`. -/
def all_dif (vb : Bool) (g : List String) (s : Store) : TRes :=
  g.foldl (allDifStep vb g) ⟨s, false, 0⟩

/-- Body of `_exc_value` once `cells_with_num` has been computed: if exactly
one cell of the group holds `num` and that cell is not already solved, print
twice (verbose) and fix its domain to `{num}`. -/
def excApply (vb : Bool) (acc : TRes) (cells : List String) (num : ℕ) : TRes :=
  match cells with
  | [] => acc
  | [t] =>
    if 1 < (acc.store t).card then
      ⟨setDom acc.store t {num}, true, acc.prints + (if vb then 2 else 0)⟩
    else acc
  | _ :: _ :: _ => acc

/-- Loop body of `_exc_value` for one value `num`: collect the group cells
whose current domain contains `num`, then apply the exclusive-value rule. -/
def excStep (vb : Bool) (g : List String) (acc : TRes) (num : ℕ) : TRes :=
  excApply vb acc (g.filter (fun y => num ∈ acc.store y)) num

/-- Python `_exc_value(vars_group, verbose)`: values 1..9 in order. -/
def exc_value (vb : Bool) (g : List String) (s : Store) : TRes :=
  (List.range' 1 9).foldl (excStep vb g) ⟨s, false, 0⟩

/-- One insertion into `domain_map` (a Python dict in insertion order, keyed
by the sorted tuple of the domain, holding the list of cells with exactly
that domain). -/
def addToMap : List (Finset ℕ × List String) → Finset ℕ → String →
    List (Finset ℕ × List String)
  | [], d, v => [(d, [v])]
  | e :: rest, d, v =>
    if e.1 = d then (e.1, e.2 ++ [v]) :: rest else e :: addToMap rest d v

/-- Phase 1 of `_naked_subsets`: group the currently-unfixed cells of the
group by their exact domain content, in first-occurrence order. -/
def buildDomainMap (g : List String) (s : Store) : List (Finset ℕ × List String) :=
  g.foldl (fun m v => if 1 < (s v).card then addToMap m (s v) v else m) []

/-- Removal loop of `_naked_subsets` for one found subset: every group cell
outside the subset loses the values it shares with the subset's domain. -/
def nakedRemoveStep (vb : Bool) (d : Finset ℕ) (cells : List String)
    (acc : TRes) (v : String) : TRes :=
  if v ∈ cells then acc
  else
    if acc.store v ∩ d = ∅ then acc
    else
      ⟨setDom acc.store v (acc.store v \ (acc.store v ∩ d)), true,
        acc.prints + (if vb then 1 else 0)⟩

/-- Loop body of `_naked_subsets` over one `domain_map` entry: when N cells
share verbatim the same N-value domain (N > 1), print three lines (verbose)
and run the removal sweep over the group. -/
def nakedEntryStep (vb : Bool) (g : List String) (acc : TRes)
    (e : Finset ℕ × List String) : TRes :=
  if e.1.card = e.2.length ∧ 1 < e.1.card then
    g.foldl (nakedRemoveStep vb e.1 e.2)
      ⟨acc.store, acc.changed, acc.prints + (if vb then 3 else 0)⟩
  else acc

/-- Python `_naked_subsets(vars_group, verbose)`: the map is built from the
store as it is on entry, then each entry is processed in insertion order. -/
def naked_subsets (vb : Bool) (g : List String) (s : Store) : TRes :=
  (buildDomainMap g s).foldl (nakedEntryStep vb g) ⟨s, false, 0⟩

/-- Phase 1 of `_hidden_subsets`: the set of currently-unfixed group cells
whose domain contains `num`, computed once from the store at entry. -/
def numToCells (g : List String) (s : Store) (num : ℕ) : Finset String :=
  (g.filter (fun v => num ∈ s v ∧ 1 < (s v).card)).toFinset

/-- Removal loop of `_hidden_subsets` for one found subset; the Bool part of
the accumulator is `found_this_subset`, which only gates the three header
prints before the first removal. -/
def hiddenCellStep (vb : Bool) (ns : Finset ℕ) (acc : TRes × Bool)
    (v : String) : TRes × Bool :=
  if acc.1.store v \ ns = ∅ then acc
  else
    (⟨setDom acc.1.store v (acc.1.store v \ (acc.1.store v \ ns)), true,
        acc.1.prints + (if acc.2 then 0 else if vb then 3 else 0) +
          (if vb then 1 else 0)⟩,
      true)

/-- Loop body of `_hidden_subsets` for one combination of values: if the
union of their candidate cells has exactly as many cells as there are values,
restrict each of those cells to the combination. -/
def hiddenComboStep (vb : Bool) (g : List String) (s0 : Store) (acc : TRes)
    (combo : List ℕ) : TRes :=
  let cu : Finset String := combo.foldl (fun u n => u ∪ numToCells g s0 n) ∅
  if cu.card = combo.length then
    ((g.filter (fun v => v ∈ cu)).foldl (hiddenCellStep vb combo.toFinset)
      (acc, false)).1
  else acc

/-- Python `_hidden_subsets(vars_group, verbose)`: `num_to_cells` is computed
once from the entry store; subset sizes N = 2, 3, 4 are tried with every
combination of N values. -/
def hidden_subsets (vb : Bool) (g : List String) (s : Store) : TRes :=
  (List.range' 2 3).foldl
    (fun acc n =>
      ((List.range' 1 9).sublistsLen n).foldl (hiddenComboStep vb g s) acc)
    ⟨s, false, 0⟩

/-- The four constraint techniques of the script. -/
inductive TechTag
  | allDif
  | excVal
  | nakedSub
  | hiddenSub
deriving DecidableEq

/-- Dispatch a technique tag to its implementation. -/
def applyTech : TechTag → Bool → List String → Store → TRes
  | TechTag.allDif, vb, g, s => all_dif vb g s
  | TechTag.excVal, vb, g, s => exc_value vb g s
  | TechTag.nakedSub, vb, g, s => naked_subsets vb g s
  | TechTag.hiddenSub, vb, g, s => hidden_subsets vb g s

/-- Python `self.constraints`: for every group, AllDif, then ExcVal, then
NakedSubsets (the HiddenSubsets registration is commented out in the source). -/
def constraintsList : List (TechTag × List String) :=
  varsGroups.flatMap (fun g =>
    [(TechTag.allDif, g), (TechTag.excVal, g), (TechTag.nakedSub, g)])

/-- One constraint application inside a pass of `Consistence`: print the
constraint name (verbose), call the technique, and OR its flag into the
pass-level anyChange. -/
def passStep (vb : Bool) (acc : TRes) (pr : TechTag × List String) : TRes :=
  let r := applyTech pr.1 vb pr.2 acc.store
  ⟨r.store, r.changed || acc.changed, acc.prints + (if vb then 1 else 0) + r.prints⟩

/-- One full pass of the `while True` loop of `Consistence`: every registered
(technique, group) pair exactly once, in registration order. -/
def runPass (vb : Bool) (s : Store) : TRes :=
  constraintsList.foldl (passStep vb) ⟨s, false, 0⟩

/-- Store reached after n passes, used to state termination of the driver. -/
def passIter (vb : Bool) : ℕ → Store → Store
  | 0, s => s
  | n + 1, s => passIter vb n ((runPass vb s).store)

/-- Result of the driver: final store, number of completed passes (the
Python `iteration - 1`), and prints executed. -/
structure DRes where
  store : Store
  passes : ℕ
  prints : ℕ

/-- Sum of all 81 domain sizes; every change of a technique strictly shrinks
it, so it bounds the number of changing passes. -/
def totalSize (s : Store) : ℕ := (cell_keys.map (fun k => (s k).card)).sum

/-- The `while True` loop of `Consistence`, written with a fuel parameter in
place of the unbounded loop; `consistenceN_fix` below shows that
`totalSize s + 1` units of fuel always reach the no-change pass, so the
fuel-exhausted base case is never taken by `Consistence`.  After each pass
two more lines are printed in verbose mode (plus the `input()` pause, which
produces no output). -/
def consistenceN : ℕ → Bool → Store → DRes
  | 0, _, s => ⟨s, 0, 0⟩
  | fuel + 1, vb, s =>
    let r := runPass vb s
    if r.changed then
      let rest := consistenceN fuel vb r.store
      ⟨rest.store, rest.passes + 1, r.prints + (if vb then 2 else 0) + rest.prints⟩
    else ⟨r.store, 1, r.prints + (if vb then 2 else 0)⟩

/-- Python `Consistence(verbose)`: loop until a pass reports no change, then
print the unconditional completion line. -/
def Consistence (vb : Bool) (s : Store) : DRes :=
  let r := consistenceN (totalSize s + 1) vb s
  ⟨r.store, r.passes, r.prints + 1⟩

/-- Row 1 of the grid, the first registered group. -/
def row1 : List String := ["A1", "B1", "C1", "D1", "E1", "F1", "G1", "H1", "I1"]

/-- A store in which cell A1 has an empty domain and every other cell is
fixed: the failing input for the `is_solved` claim. -/
def c1Store : Store := fun k => if k = "A1" then ∅ else {1}

/-- Store for the C3 counterexample: C1 and D1 are fixed to 2 and 3, and the
sweep fixes both A1 and B1 to 1 within a single `_all_dif` call. -/
def c3Store : Store := fun k =>
  if k = "A1" then {1, 2}
  else if k = "B1" then {1, 3}
  else if k = "C1" then {2}
  else if k = "D1" then {3}
  else {4, 5, 6, 7, 8, 9}

/-- Store for the C3 witness: nine distinct singletons on row 1, a fixpoint
of `_all_dif`. -/
def c3FixStore : Store := fun k =>
  if k = "A1" then {1}
  else if k = "B1" then {2}
  else if k = "C1" then {3}
  else if k = "D1" then {4}
  else if k = "E1" then {5}
  else if k = "F1" then {6}
  else if k = "G1" then {7}
  else if k = "H1" then {8}
  else {9}

/-- Store for the first C4 counterexample scenario: A1 is already fixed to 5,
B1 is the only non-fixed cell whose domain holds 5. -/
def c4StoreA : Store := fun k =>
  if k = "A1" then {5}
  else if k = "B1" then {5, 6}
  else {1, 2, 3, 4, 6, 7, 8, 9}

/-- Store for the second C4 counterexample scenario: both 3 and 5 occur only
in B1, so the pass fixes B1 to 3 before value 5 is examined. -/
def c4StoreB : Store := fun k =>
  if k = "B1" then {3, 5} else {1, 2, 4, 6, 7, 8, 9}

/-- Store for the C4 witness: 5 occurs in no cell of row 1 except the
unfixed B1. -/
def c4WitStore : Store := fun k =>
  if k = "B1" then {5, 6} else {1, 2, 3, 4, 6, 7, 8, 9}

/-- Store for the C8 witness: A1 and B1 are the naked pair {2, 5}, every
other cell is fixed. -/
def c8WitStore : Store := fun k =>
  if k = "A1" ∨ k = "B1" then {2, 5} else {1}

/-! ### Basic facts about the store and the size measure -/

theorem setDom_same (s : Store) (k : String) (d : Finset ℕ) : setDom s k d k = d := by
  simp [setDom]

theorem setDom_other (s : Store) (k k2 : String) (d : Finset ℕ) (h : k2 ≠ k) :
    setDom s k d k2 = s k2 := by
  simp [setDom, h]

theorem theVal_singleton (n : ℕ) : theVal {n} = n := by
  rw [theVal, Finset.min_singleton, WithTop.untop'_coe]

theorem eq_singleton_theVal {d : Finset ℕ} (h : d.card = 1) : d = {theVal d} := by
  obtain ⟨a, ha⟩ := Finset.card_eq_one.mp h
  subst ha
  rw [theVal_singleton]

theorem setDom_subset {s : Store} {k : String} {d : Finset ℕ} (hd : d ⊆ s k) :
    ∀ k2, setDom s k d k2 ⊆ s k2 := by
  intro k2
  by_cases h : k2 = k
  · subst h
    rw [setDom_same]
    exact hd
  · rw [setDom_other _ _ _ _ h]

theorem totalSize_le {s1 s2 : Store} (h : ∀ k, s2 k ⊆ s1 k) :
    totalSize s2 ≤ totalSize s1 :=
  List.sum_le_sum (fun k _ => Finset.card_le_card (h k))

theorem totalSize_lt {s1 s2 : Store} (h : ∀ k, s2 k ⊆ s1 k) {k0 : String}
    (hk : k0 ∈ cell_keys) (hlt : (s2 k0).card < (s1 k0).card) :
    totalSize s2 < totalSize s1 :=
  List.sum_lt_sum _ _ (fun k _ => Finset.card_le_card (h k)) ⟨k0, hk, hlt⟩

theorem totalSize_setDom_lt {s : Store} {k : String} {d : Finset ℕ}
    (hd : d ⊆ s k) (hk : k ∈ cell_keys) (hlt : d.card < (s k).card) :
    totalSize (setDom s k d) < totalSize s :=
  totalSize_lt (setDom_subset hd) hk (by rw [setDom_same]; exact hlt)

/-! ### Generic lemmas about folds over technique accumulators -/

theorem foldl_store_mono {α : Type} (h : TRes → α → TRes) :
    ∀ (l : List α), (∀ a x, x ∈ l → ∀ k, (h a x).store k ⊆ a.store k) →
      ∀ a k, ((l.foldl h a).store k) ⊆ a.store k := by
  intro l
  induction l with
  | nil =>
    intro _ a k
    rw [List.foldl_nil]
  | cons x xs ih =>
    intro hm a k
    rw [List.foldl_cons]
    exact (ih (fun a2 y hy k2 => hm a2 y (List.mem_cons_of_mem _ hy) k2) (h a x) k).trans
      (hm a x (List.mem_cons_self _ _) k)

theorem foldl_nochange {α : Type} (h : TRes → α → TRes) :
    ∀ (l : List α),
      (∀ a x, x ∈ l → (h a x).changed = false → (h a x).store = a.store ∧ a.changed = false) →
      ∀ a, (l.foldl h a).changed = false →
        (l.foldl h a).store = a.store ∧ a.changed = false := by
  intro l
  induction l with
  | nil =>
    intro _ a hc
    rw [List.foldl_nil] at hc ⊢
    exact ⟨rfl, hc⟩
  | cons x xs ih =>
    intro hn a hc
    rw [List.foldl_cons] at hc ⊢
    obtain ⟨h1, h2⟩ := ih (fun a2 y hy => hn a2 y (List.mem_cons_of_mem _ hy)) (h a x) hc
    obtain ⟨h3, h4⟩ := hn a x (List.mem_cons_self _ _) h2
    exact ⟨h1.trans h3, h4⟩

theorem foldl_strict {α : Type} (h : TRes → α → TRes) :
    ∀ (l : List α),
      (∀ a x, x ∈ l → ∀ k, (h a x).store k ⊆ a.store k) →
      (∀ a x, x ∈ l → (h a x).changed = true →
        a.changed = true ∨ totalSize (h a x).store < totalSize a.store) →
      ∀ a, (l.foldl h a).changed = true →
        a.changed = true ∨ totalSize (l.foldl h a).store < totalSize a.store := by
  intro l
  induction l with
  | nil =>
    intro _ _ a hc
    rw [List.foldl_nil] at hc
    exact Or.inl hc
  | cons x xs ih =>
    intro hm hs a hc
    rw [List.foldl_cons] at hc ⊢
    have hmx := fun a2 y hy k => hm a2 y (List.mem_cons_of_mem _ hy) k
    have hsx := fun a2 y hy => hs a2 y (List.mem_cons_of_mem _ hy)
    rcases ih hmx hsx (h a x) hc with h1 | h1
    · rcases hs a x (List.mem_cons_self _ _) h1 with h2 | h2
      · exact Or.inl h2
      · exact Or.inr (lt_of_le_of_lt (totalSize_le (foldl_store_mono h xs hmx (h a x))) h2)
    · exact Or.inr (lt_of_lt_of_le h1 (totalSize_le (fun k => hm a x (List.mem_cons_self _ _) k)))

theorem foldl_inv {α : Type} (h : TRes → α → TRes) (P : Store → Prop) :
    ∀ (l : List α), (∀ a x, x ∈ l → P a.store → P (h a x).store) →
      ∀ a, P a.store → P ((l.foldl h a).store) := by
  intro l
  induction l with
  | nil =>
    intro _ a hp
    rw [List.foldl_nil]
    exact hp
  | cons x xs ih =>
    intro hstep a hp
    rw [List.foldl_cons]
    exact ih (fun a2 y hy => hstep a2 y (List.mem_cons_of_mem _ hy)) (h a x)
      (hstep a x (List.mem_cons_self _ _) hp)

theorem foldl_untouched {α : Type} (h : TRes → α → TRes) (k : String) :
    ∀ (l : List α), (∀ a x, x ∈ l → (h a x).store k = a.store k) →
      ∀ a, (l.foldl h a).store k = a.store k := by
  intro l
  induction l with
  | nil =>
    intro _ a
    rw [List.foldl_nil]
  | cons x xs ih =>
    intro hu a
    rw [List.foldl_cons]
    exact (ih (fun a2 y hy => hu a2 y (List.mem_cons_of_mem _ hy)) (h a x)).trans
      (hu a x (List.mem_cons_self _ _))

theorem foldl_rel {α : Type} (h1 h2 : TRes → α → TRes) :
    ∀ (l : List α),
      (∀ a1 a2 x, x ∈ l → a1.store = a2.store → a1.changed = a2.changed →
        (h1 a1 x).store = (h2 a2 x).store ∧ (h1 a1 x).changed = (h2 a2 x).changed) →
      ∀ a1 a2, a1.store = a2.store → a1.changed = a2.changed →
        (l.foldl h1 a1).store = (l.foldl h2 a2).store ∧
          (l.foldl h1 a1).changed = (l.foldl h2 a2).changed := by
  intro l
  induction l with
  | nil =>
    intro _ a1 a2 hst hch
    rw [List.foldl_nil, List.foldl_nil]
    exact ⟨hst, hch⟩
  | cons x xs ih =>
    intro hrel a1 a2 hst hch
    rw [List.foldl_cons, List.foldl_cons]
    obtain ⟨h1', h2'⟩ := hrel a1 a2 x (List.mem_cons_self _ _) hst hch
    exact ih (fun b1 b2 y hy => hrel b1 b2 y (List.mem_cons_of_mem _ hy)) (h1 a1 x) (h2 a2 x) h1' h2'

/-! ### Properties of `_all_dif` -/

theorem allDifInnerStep_mono (vb : Bool) (x : String) (v : ℕ) (a : TRes) (y k : String) :
    (allDifInnerStep vb x v a y).store k ⊆ a.store k := by
  rw [allDifInnerStep]
  split
  · exact setDom_subset (Finset.erase_subset _ _) k
  · exact Finset.Subset.refl _

theorem allDifInnerStep_nochange (vb : Bool) (x : String) (v : ℕ) (a : TRes) (y : String) :
    (allDifInnerStep vb x v a y).changed = false →
    (allDifInnerStep vb x v a y).store = a.store ∧ a.changed = false := by
  rw [allDifInnerStep]
  split
  · intro hc
    simp at hc
  · intro hc
    exact ⟨rfl, hc⟩

theorem allDifInnerStep_strict (vb : Bool) (x : String) (v : ℕ) (a : TRes) (y : String)
    (hy : y ∈ cell_keys) :
    (allDifInnerStep vb x v a y).changed = true →
    a.changed = true ∨ totalSize (allDifInnerStep vb x v a y).store < totalSize a.store := by
  rw [allDifInnerStep]
  split
  · next hcond =>
    intro _
    exact Or.inr (totalSize_setDom_lt (Finset.erase_subset _ _) hy
      (Finset.card_erase_lt_of_mem hcond.2))
  · intro hc
    exact Or.inl hc

theorem allDifStep_mono (vb : Bool) (g : List String) (a : TRes) (x k : String) :
    (allDifStep vb g a x).store k ⊆ a.store k := by
  rw [allDifStep]
  split
  · exact foldl_store_mono _ g (fun a2 y _ k2 => allDifInnerStep_mono vb x _ a2 y k2) _ k
  · exact Finset.Subset.refl _

theorem allDifStep_nochange (vb : Bool) (g : List String) (a : TRes) (x : String) :
    (allDifStep vb g a x).changed = false →
    (allDifStep vb g a x).store = a.store ∧ a.changed = false := by
  rw [allDifStep]
  split
  · intro hc
    exact foldl_nochange _ g (fun a2 y _ => allDifInnerStep_nochange vb x _ a2 y) _ hc
  · intro hc
    exact ⟨rfl, hc⟩

theorem allDifStep_strict (vb : Bool) (g : List String) (a : TRes) (x : String)
    (hg : ∀ c ∈ g, c ∈ cell_keys) :
    (allDifStep vb g a x).changed = true →
    a.changed = true ∨ totalSize (allDifStep vb g a x).store < totalSize a.store := by
  rw [allDifStep]
  split
  · intro hc
    exact foldl_strict (allDifInnerStep vb x (theVal (a.store x))) g
      (fun a2 y _ k => allDifInnerStep_mono vb x (theVal (a.store x)) a2 y k)
      (fun a2 y hy => allDifInnerStep_strict vb x (theVal (a.store x)) a2 y (hg y hy))
      ⟨a.store, a.changed, a.prints + (if vb then 1 else 0)⟩ hc
  · intro hc
    exact Or.inl hc

theorem all_dif_mono (vb : Bool) (g : List String) (s : Store) (k : String) :
    (all_dif vb g s).store k ⊆ s k :=
  foldl_store_mono _ g (fun a x _ k2 => allDifStep_mono vb g a x k2) ⟨s, false, 0⟩ k

theorem all_dif_nochange (vb : Bool) (g : List String) (s : Store)
    (hc : (all_dif vb g s).changed = false) : (all_dif vb g s).store = s :=
  (foldl_nochange _ g (fun a x _ => allDifStep_nochange vb g a x) ⟨s, false, 0⟩ hc).1

theorem all_dif_strict (vb : Bool) (g : List String) (s : Store)
    (hg : ∀ c ∈ g, c ∈ cell_keys) (hc : (all_dif vb g s).changed = true) :
    totalSize (all_dif vb g s).store < totalSize s := by
  rcases foldl_strict _ g (fun a x _ k => allDifStep_mono vb g a x k)
    (fun a x _ => allDifStep_strict vb g a x hg) ⟨s, false, 0⟩ hc with h | h
  · exact absurd h Bool.false_ne_true
  · exact h

/-! ### Properties of `_exc_value` -/

theorem excStep_mono (vb : Bool) (g : List String) (a : TRes) (num : ℕ) (k : String) :
    (excStep vb g a num).store k ⊆ a.store k := by
  rw [excStep]
  rcases hf : g.filter (fun y => num ∈ a.store y) with _ | ⟨t, rest⟩
  · rw [excApply]
  · rcases rest with _ | ⟨u, rest2⟩
    · have ht : t ∈ g.filter (fun y => num ∈ a.store y) := by
        rw [hf]
        exact List.mem_cons_self _ _
      have hnum : num ∈ a.store t := by
        have := (List.mem_filter.mp ht).2
        simpa using this
      rw [excApply]
      split
      · exact setDom_subset (Finset.singleton_subset_iff.mpr hnum) k
      · exact Finset.Subset.refl _
    · rw [excApply]

theorem excStep_nochange (vb : Bool) (g : List String) (a : TRes) (num : ℕ) :
    (excStep vb g a num).changed = false →
    (excStep vb g a num).store = a.store ∧ a.changed = false := by
  rw [excStep]
  rcases g.filter (fun y => num ∈ a.store y) with _ | ⟨t, _ | ⟨u, rest2⟩⟩
  · rw [excApply]
    exact fun hc => ⟨rfl, hc⟩
  · rw [excApply]
    split
    · intro hc
      simp at hc
    · exact fun hc => ⟨rfl, hc⟩
  · rw [excApply]
    exact fun hc => ⟨rfl, hc⟩

theorem excStep_strict (vb : Bool) (g : List String) (a : TRes) (num : ℕ)
    (hg : ∀ c ∈ g, c ∈ cell_keys) :
    (excStep vb g a num).changed = true →
    a.changed = true ∨ totalSize (excStep vb g a num).store < totalSize a.store := by
  rw [excStep]
  rcases hf : g.filter (fun y => num ∈ a.store y) with _ | ⟨t, rest⟩
  · rw [excApply]
    exact fun hc => Or.inl hc
  · rcases rest with _ | ⟨u, rest2⟩
    · have ht : t ∈ g.filter (fun y => num ∈ a.store y) := by
        rw [hf]
        exact List.mem_cons_self _ _
      have hnum : num ∈ a.store t := by
        have := (List.mem_filter.mp ht).2
        simpa using this
      have htg : t ∈ g := (List.mem_filter.mp ht).1
      rw [excApply]
      split
      · next hcard =>
        intro _
        refine Or.inr (totalSize_setDom_lt (Finset.singleton_subset_iff.mpr hnum)
          (hg t htg) ?_)
        rw [Finset.card_singleton]
        exact hcard
      · exact fun hc => Or.inl hc
    · rw [excApply]
      exact fun hc => Or.inl hc

theorem exc_value_mono (vb : Bool) (g : List String) (s : Store) (k : String) :
    (exc_value vb g s).store k ⊆ s k :=
  foldl_store_mono (excStep vb g) (List.range' 1 9)
    (fun a n _ k2 => excStep_mono vb g a n k2) ⟨s, false, 0⟩ k

theorem exc_value_nochange (vb : Bool) (g : List String) (s : Store)
    (hc : (exc_value vb g s).changed = false) : (exc_value vb g s).store = s :=
  (foldl_nochange (excStep vb g) (List.range' 1 9)
    (fun a n _ => excStep_nochange vb g a n) ⟨s, false, 0⟩ hc).1

theorem exc_value_strict (vb : Bool) (g : List String) (s : Store)
    (hg : ∀ c ∈ g, c ∈ cell_keys) (hc : (exc_value vb g s).changed = true) :
    totalSize (exc_value vb g s).store < totalSize s := by
  rcases foldl_strict (excStep vb g) (List.range' 1 9)
    (fun a n _ k => excStep_mono vb g a n k)
    (fun a n _ => excStep_strict vb g a n hg) ⟨s, false, 0⟩ hc with h | h
  · exact absurd h Bool.false_ne_true
  · exact h

/-! ### Properties of `_naked_subsets` -/

theorem nakedRemoveStep_mono (vb : Bool) (d : Finset ℕ) (cells : List String)
    (a : TRes) (v k : String) :
    (nakedRemoveStep vb d cells a v).store k ⊆ a.store k := by
  rw [nakedRemoveStep]
  split
  · exact Finset.Subset.refl _
  · split
    · exact Finset.Subset.refl _
    · exact setDom_subset Finset.sdiff_subset k

theorem nakedRemoveStep_nochange (vb : Bool) (d : Finset ℕ) (cells : List String)
    (a : TRes) (v : String) :
    (nakedRemoveStep vb d cells a v).changed = false →
    (nakedRemoveStep vb d cells a v).store = a.store ∧ a.changed = false := by
  rw [nakedRemoveStep]
  split
  · exact fun hc => ⟨rfl, hc⟩
  · split
    · exact fun hc => ⟨rfl, hc⟩
    · intro hc
      simp at hc

theorem nakedRemoveStep_strict (vb : Bool) (d : Finset ℕ) (cells : List String)
    (a : TRes) (v : String) (hv : v ∈ cell_keys) :
    (nakedRemoveStep vb d cells a v).changed = true →
    a.changed = true ∨ totalSize (nakedRemoveStep vb d cells a v).store < totalSize a.store := by
  rw [nakedRemoveStep]
  split
  · exact fun hc => Or.inl hc
  · split
    · exact fun hc => Or.inl hc
    · next hne =>
      intro _
      refine Or.inr (totalSize_setDom_lt Finset.sdiff_subset hv (Finset.card_lt_card ?_))
      exact Finset.sdiff_ssubset Finset.inter_subset_left
        (Finset.nonempty_iff_ne_empty.mpr hne)

theorem nakedEntryStep_mono (vb : Bool) (g : List String) (a : TRes)
    (e : Finset ℕ × List String) (k : String) :
    (nakedEntryStep vb g a e).store k ⊆ a.store k := by
  rw [nakedEntryStep]
  split
  · exact foldl_store_mono (nakedRemoveStep vb e.1 e.2) g
      (fun a2 v _ k2 => nakedRemoveStep_mono vb e.1 e.2 a2 v k2) _ k
  · exact Finset.Subset.refl _

theorem nakedEntryStep_nochange (vb : Bool) (g : List String) (a : TRes)
    (e : Finset ℕ × List String) :
    (nakedEntryStep vb g a e).changed = false →
    (nakedEntryStep vb g a e).store = a.store ∧ a.changed = false := by
  rw [nakedEntryStep]
  split
  · intro hc
    exact foldl_nochange (nakedRemoveStep vb e.1 e.2) g
      (fun a2 v _ => nakedRemoveStep_nochange vb e.1 e.2 a2 v) _ hc
  · exact fun hc => ⟨rfl, hc⟩

theorem nakedEntryStep_strict (vb : Bool) (g : List String) (a : TRes)
    (e : Finset ℕ × List String) (hg : ∀ c ∈ g, c ∈ cell_keys) :
    (nakedEntryStep vb g a e).changed = true →
    a.changed = true ∨ totalSize (nakedEntryStep vb g a e).store < totalSize a.store := by
  rw [nakedEntryStep]
  split
  · intro hc
    exact foldl_strict (nakedRemoveStep vb e.1 e.2) g
      (fun a2 v _ k => nakedRemoveStep_mono vb e.1 e.2 a2 v k)
      (fun a2 v hv => nakedRemoveStep_strict vb e.1 e.2 a2 v (hg v hv))
      ⟨a.store, a.changed, a.prints + (if vb then 3 else 0)⟩ hc
  · exact fun hc => Or.inl hc

theorem naked_subsets_mono (vb : Bool) (g : List String) (s : Store) (k : String) :
    (naked_subsets vb g s).store k ⊆ s k :=
  foldl_store_mono (nakedEntryStep vb g) (buildDomainMap g s)
    (fun a e _ k2 => nakedEntryStep_mono vb g a e k2) ⟨s, false, 0⟩ k

theorem naked_subsets_nochange (vb : Bool) (g : List String) (s : Store)
    (hc : (naked_subsets vb g s).changed = false) : (naked_subsets vb g s).store = s :=
  (foldl_nochange (nakedEntryStep vb g) (buildDomainMap g s)
    (fun a e _ => nakedEntryStep_nochange vb g a e) ⟨s, false, 0⟩ hc).1

theorem naked_subsets_strict (vb : Bool) (g : List String) (s : Store)
    (hg : ∀ c ∈ g, c ∈ cell_keys) (hc : (naked_subsets vb g s).changed = true) :
    totalSize (naked_subsets vb g s).store < totalSize s := by
  rcases foldl_strict (nakedEntryStep vb g) (buildDomainMap g s)
    (fun a e _ k => nakedEntryStep_mono vb g a e k)
    (fun a e _ => nakedEntryStep_strict vb g a e hg) ⟨s, false, 0⟩ hc with h | h
  · exact absurd h Bool.false_ne_true
  · exact h

/-! ### Properties of `_hidden_subsets` -/

theorem hiddenCellStep_mono (vb : Bool) (ns : Finset ℕ) (acc : TRes × Bool) (v k : String) :
    (hiddenCellStep vb ns acc v).1.store k ⊆ acc.1.store k := by
  rw [hiddenCellStep]
  split
  · exact Finset.Subset.refl _
  · exact setDom_subset Finset.sdiff_subset k

theorem hiddenCellStep_nochange (vb : Bool) (ns : Finset ℕ) (acc : TRes × Bool) (v : String) :
    (hiddenCellStep vb ns acc v).1.changed = false →
    (hiddenCellStep vb ns acc v).1.store = acc.1.store ∧ acc.1.changed = false := by
  rw [hiddenCellStep]
  split
  · exact fun hc => ⟨rfl, hc⟩
  · intro hc
    simp at hc

theorem hiddenCellStep_strict (vb : Bool) (ns : Finset ℕ) (acc : TRes × Bool) (v : String)
    (hv : v ∈ cell_keys) :
    (hiddenCellStep vb ns acc v).1.changed = true →
    acc.1.changed = true ∨
      totalSize (hiddenCellStep vb ns acc v).1.store < totalSize acc.1.store := by
  rw [hiddenCellStep]
  split
  · exact fun hc => Or.inl hc
  · next hne =>
    intro _
    refine Or.inr (totalSize_setDom_lt Finset.sdiff_subset hv (Finset.card_lt_card ?_))
    exact Finset.sdiff_ssubset Finset.sdiff_subset (Finset.nonempty_iff_ne_empty.mpr hne)

theorem hiddenCells_mono (vb : Bool) (ns : Finset ℕ) :
    ∀ (l : List String) (acc : TRes × Bool) (k : String),
      ((l.foldl (hiddenCellStep vb ns) acc).1.store k) ⊆ acc.1.store k := by
  intro l
  induction l with
  | nil =>
    intro acc k
    rw [List.foldl_nil]
  | cons v rest ih =>
    intro acc k
    rw [List.foldl_cons]
    exact (ih _ k).trans (hiddenCellStep_mono vb ns acc v k)

theorem hiddenCells_nochange (vb : Bool) (ns : Finset ℕ) :
    ∀ (l : List String) (acc : TRes × Bool),
      (l.foldl (hiddenCellStep vb ns) acc).1.changed = false →
      (l.foldl (hiddenCellStep vb ns) acc).1.store = acc.1.store ∧
        acc.1.changed = false := by
  intro l
  induction l with
  | nil =>
    intro acc hc
    rw [List.foldl_nil] at hc ⊢
    exact ⟨rfl, hc⟩
  | cons v rest ih =>
    intro acc hc
    rw [List.foldl_cons] at hc ⊢
    obtain ⟨h1, h2⟩ := ih _ hc
    obtain ⟨h3, h4⟩ := hiddenCellStep_nochange vb ns acc v h2
    exact ⟨h1.trans h3, h4⟩

theorem hiddenCells_strict (vb : Bool) (ns : Finset ℕ) :
    ∀ (l : List String), (∀ v ∈ l, v ∈ cell_keys) →
      ∀ (acc : TRes × Bool), (l.foldl (hiddenCellStep vb ns) acc).1.changed = true →
        acc.1.changed = true ∨
          totalSize (l.foldl (hiddenCellStep vb ns) acc).1.store < totalSize acc.1.store := by
  intro l
  induction l with
  | nil =>
    intro _ acc hc
    rw [List.foldl_nil] at hc
    exact Or.inl hc
  | cons v rest ih =>
    intro hl acc hc
    rw [List.foldl_cons] at hc ⊢
    rcases ih (fun w hw => hl w (List.mem_cons_of_mem _ hw)) _ hc with h1 | h1
    · rcases hiddenCellStep_strict vb ns acc v (hl v (List.mem_cons_self _ _)) h1 with h2 | h2
      · exact Or.inl h2
      · refine Or.inr (lt_of_le_of_lt ?_ h2)
        exact totalSize_le (fun k => hiddenCells_mono vb ns rest _ k)
    · exact Or.inr (lt_of_lt_of_le h1
        (totalSize_le (fun k => hiddenCellStep_mono vb ns acc v k)))

theorem hiddenComboStep_mono (vb : Bool) (g : List String) (s0 : Store) (a : TRes)
    (combo : List ℕ) (k : String) :
    (hiddenComboStep vb g s0 a combo).store k ⊆ a.store k := by
  simp only [hiddenComboStep]
  split
  · exact hiddenCells_mono vb _ _ (a, false) k
  · exact Finset.Subset.refl _

theorem hiddenComboStep_nochange (vb : Bool) (g : List String) (s0 : Store) (a : TRes)
    (combo : List ℕ) :
    (hiddenComboStep vb g s0 a combo).changed = false →
    (hiddenComboStep vb g s0 a combo).store = a.store ∧ a.changed = false := by
  simp only [hiddenComboStep]
  split
  · intro hc
    exact hiddenCells_nochange vb _ _ (a, false) hc
  · exact fun hc => ⟨rfl, hc⟩

theorem hiddenComboStep_strict (vb : Bool) (g : List String) (s0 : Store) (a : TRes)
    (combo : List ℕ) (hg : ∀ c ∈ g, c ∈ cell_keys) :
    (hiddenComboStep vb g s0 a combo).changed = true →
    a.changed = true ∨ totalSize (hiddenComboStep vb g s0 a combo).store < totalSize a.store := by
  simp only [hiddenComboStep]
  split
  · intro hc
    exact hiddenCells_strict vb _ _
      (fun v hv => hg v (List.mem_of_mem_filter hv)) (a, false) hc
  · exact fun hc => Or.inl hc

theorem hidden_subsets_mono (vb : Bool) (g : List String) (s : Store) (k : String) :
    (hidden_subsets vb g s).store k ⊆ s k :=
  foldl_store_mono _ (List.range' 2 3)
    (fun a n _ k2 => foldl_store_mono (hiddenComboStep vb g s) ((List.range' 1 9).sublistsLen n)
      (fun a2 combo _ k3 => hiddenComboStep_mono vb g s a2 combo k3) a k2)
    ⟨s, false, 0⟩ k

theorem hidden_subsets_nochange (vb : Bool) (g : List String) (s : Store)
    (hc : (hidden_subsets vb g s).changed = false) : (hidden_subsets vb g s).store = s :=
  (foldl_nochange _ (List.range' 2 3)
    (fun a n _ => foldl_nochange (hiddenComboStep vb g s) ((List.range' 1 9).sublistsLen n)
      (fun a2 combo _ => hiddenComboStep_nochange vb g s a2 combo) a)
    ⟨s, false, 0⟩ hc).1

theorem hidden_subsets_strict (vb : Bool) (g : List String) (s : Store)
    (hg : ∀ c ∈ g, c ∈ cell_keys) (hc : (hidden_subsets vb g s).changed = true) :
    totalSize (hidden_subsets vb g s).store < totalSize s := by
  rcases foldl_strict _ (List.range' 2 3)
    (fun a n _ k => foldl_store_mono (hiddenComboStep vb g s) ((List.range' 1 9).sublistsLen n)
      (fun a2 combo _ k2 => hiddenComboStep_mono vb g s a2 combo k2) a k)
    (fun a n _ => foldl_strict (hiddenComboStep vb g s) ((List.range' 1 9).sublistsLen n)
      (fun a2 combo _ k => hiddenComboStep_mono vb g s a2 combo k)
      (fun a2 combo _ => hiddenComboStep_strict vb g s a2 combo hg) a)
    ⟨s, false, 0⟩ hc with h | h
  · exact absurd h Bool.false_ne_true
  · exact h

/-! ### The technique dispatcher and the constraint registration -/

theorem applyTech_mono (t : TechTag) (vb : Bool) (g : List String) (s : Store) (k : String) :
    (applyTech t vb g s).store k ⊆ s k := by
  cases t
  · exact all_dif_mono vb g s k
  · exact exc_value_mono vb g s k
  · exact naked_subsets_mono vb g s k
  · exact hidden_subsets_mono vb g s k

theorem applyTech_nochange (t : TechTag) (vb : Bool) (g : List String) (s : Store)
    (hc : (applyTech t vb g s).changed = false) : (applyTech t vb g s).store = s := by
  cases t
  · exact all_dif_nochange vb g s hc
  · exact exc_value_nochange vb g s hc
  · exact naked_subsets_nochange vb g s hc
  · exact hidden_subsets_nochange vb g s hc

theorem applyTech_strict (t : TechTag) (vb : Bool) (g : List String) (s : Store)
    (hg : ∀ c ∈ g, c ∈ cell_keys) (hc : (applyTech t vb g s).changed = true) :
    totalSize (applyTech t vb g s).store < totalSize s := by
  cases t
  · exact all_dif_strict vb g s hg hc
  · exact exc_value_strict vb g s hg hc
  · exact naked_subsets_strict vb g s hg hc
  · exact hidden_subsets_strict vb g s hg hc

theorem cellName_mem_cell_keys {c : Char} {r : ℕ} (hc : c ∈ cols) (hr : r ∈ rows) :
    cellName c r ∈ cell_keys := by
  rw [cell_keys, List.mem_flatMap]
  exact ⟨r, hr, List.mem_map.mpr ⟨c, hc, rfl⟩⟩

theorem varsGroups_sub : ∀ g ∈ varsGroups, ∀ c ∈ g, c ∈ cell_keys := by
  intro g hg c hc
  rw [varsGroups, List.mem_append, List.mem_append] at hg
  rcases hg with (hg | hg) | hg
  · rw [rows_constraints, List.mem_map] at hg
    obtain ⟨i, hi, rfl⟩ := hg
    rw [List.mem_map] at hc
    obtain ⟨ch, hch, rfl⟩ := hc
    exact cellName_mem_cell_keys hch hi
  · rw [cols_constraints, List.mem_map] at hg
    obtain ⟨ch, hch, rfl⟩ := hg
    rw [List.mem_map] at hc
    obtain ⟨i, hi, rfl⟩ := hc
    exact cellName_mem_cell_keys hch hi
  · rw [boxes_constraints, List.mem_flatMap] at hg
    obtain ⟨i, hi, hg2⟩ := hg
    rw [List.mem_map] at hg2
    obtain ⟨j, hj, rfl⟩ := hg2
    rw [List.mem_flatMap] at hc
    obtain ⟨x, hx, hc2⟩ := hc
    rw [List.mem_map] at hc2
    obtain ⟨y, hy, rfl⟩ := hc2
    rw [List.mem_range] at hi hx hj hy
    have hcols : cols.length = 9 := rfl
    have hrows : rows.length = 9 := rfl
    apply cellName_mem_cell_keys
    · have hlt : i * 3 + x < cols.length := by omega
      rw [List.getD_eq_getElem _ _ hlt]
      exact List.getElem_mem hlt
    · have hlt : j * 3 + y < rows.length := by omega
      rw [List.getD_eq_getElem _ _ hlt]
      exact List.getElem_mem hlt

theorem constraintsList_sub :
    ∀ pr ∈ constraintsList, ∀ c ∈ pr.2, c ∈ cell_keys := by
  intro pr hpr c hc
  rw [constraintsList, List.mem_flatMap] at hpr
  obtain ⟨g, hg, hpr2⟩ := hpr
  simp only [List.mem_cons, List.not_mem_nil, or_false] at hpr2
  rcases hpr2 with rfl | rfl | rfl
  · exact varsGroups_sub g hg c hc
  · exact varsGroups_sub g hg c hc
  · exact varsGroups_sub g hg c hc

/-! ### Properties of one pass of the driver -/

theorem passStep_mono (vb : Bool) (a : TRes) (pr : TechTag × List String) (k : String) :
    (passStep vb a pr).store k ⊆ a.store k :=
  applyTech_mono pr.1 vb pr.2 a.store k

theorem passStep_nochange (vb : Bool) (a : TRes) (pr : TechTag × List String) :
    (passStep vb a pr).changed = false →
    (passStep vb a pr).store = a.store ∧ a.changed = false := by
  intro hc
  have h2 : ((applyTech pr.1 vb pr.2 a.store).changed || a.changed) = false := hc
  rw [Bool.or_eq_false_iff] at h2
  exact ⟨applyTech_nochange pr.1 vb pr.2 a.store h2.1, h2.2⟩

theorem passStep_strict (vb : Bool) (a : TRes) (pr : TechTag × List String)
    (hpr : ∀ c ∈ pr.2, c ∈ cell_keys) :
    (passStep vb a pr).changed = true →
    a.changed = true ∨ totalSize (passStep vb a pr).store < totalSize a.store := by
  intro hc
  have h2 : ((applyTech pr.1 vb pr.2 a.store).changed || a.changed) = true := hc
  rcases Bool.or_eq_true_iff.mp h2 with h | h
  · exact Or.inr (applyTech_strict pr.1 vb pr.2 a.store hpr h)
  · exact Or.inl h

theorem runPass_mono (vb : Bool) (s : Store) (k : String) :
    (runPass vb s).store k ⊆ s k :=
  foldl_store_mono (passStep vb) constraintsList
    (fun a pr _ k2 => passStep_mono vb a pr k2) ⟨s, false, 0⟩ k

theorem runPass_nochange (vb : Bool) (s : Store)
    (hc : (runPass vb s).changed = false) : (runPass vb s).store = s :=
  (foldl_nochange (passStep vb) constraintsList
    (fun a pr _ => passStep_nochange vb a pr) ⟨s, false, 0⟩ hc).1

theorem runPass_strict (vb : Bool) (s : Store)
    (hc : (runPass vb s).changed = true) :
    totalSize (runPass vb s).store < totalSize s := by
  rcases foldl_strict (passStep vb) constraintsList
    (fun a pr _ k => passStep_mono vb a pr k)
    (fun a pr hpr => passStep_strict vb a pr (constraintsList_sub pr hpr))
    ⟨s, false, 0⟩ hc with h | h
  · exact absurd h Bool.false_ne_true
  · exact h

/- From here on, proofs about the driver never need to evaluate the
registration list symbolically; sealing it keeps unification from unfolding
a pass over all 81 registered pairs (kernel-level `decide` is unaffected). -/
attribute [irreducible] constraintsList

/-! ### Properties of the driver -/

theorem consistenceN_fix : ∀ (fuel : ℕ) (vb : Bool) (s : Store), totalSize s < fuel →
    (runPass vb (consistenceN fuel vb s).store).changed = false := by
  intro fuel
  induction fuel with
  | zero =>
    intro vb s h
    exact absurd h (Nat.not_lt_zero _)
  | succ f ih =>
    intro vb s h
    simp only [consistenceN]
    split
    · next hch =>
      have hlt := runPass_strict vb s hch
      exact ih vb (runPass vb s).store (by omega)
    · next hch =>
      have hch2 : (runPass vb s).changed = false := by
        rwa [Bool.not_eq_true] at hch
      rw [runPass_nochange vb s hch2]
      exact hch2

theorem consistenceN_mono : ∀ (fuel : ℕ) (vb : Bool) (s : Store) (k : String),
    (consistenceN fuel vb s).store k ⊆ s k := by
  intro fuel
  induction fuel with
  | zero =>
    intro vb s k
    rw [consistenceN]
  | succ f ih =>
    intro vb s k
    simp only [consistenceN]
    split
    · show (consistenceN f vb (runPass vb s).store).store k ⊆ s k
      exact (ih vb (runPass vb s).store k).trans (runPass_mono vb s k)
    · show (runPass vb s).store k ⊆ s k
      exact runPass_mono vb s k

theorem exists_noChange_pass : ∀ (b : ℕ) (vb : Bool) (s : Store), totalSize s ≤ b →
    ∃ n, (runPass vb (passIter vb n s)).changed = false := by
  intro b
  induction b with
  | zero =>
    intro vb s h
    by_cases hch : (runPass vb s).changed = true
    · have := runPass_strict vb s hch
      omega
    · exact ⟨0, by rwa [Bool.not_eq_true] at hch⟩
  | succ f ih =>
    intro vb s h
    by_cases hch : (runPass vb s).changed = true
    · have hlt := runPass_strict vb s hch
      obtain ⟨n, hn⟩ := ih vb (runPass vb s).store (by omega)
      exact ⟨n + 1, hn⟩
    · exact ⟨0, by rwa [Bool.not_eq_true] at hch⟩

/-! ### Lemmas for the loader -/

theorem load_cells_untouched : ∀ (keys lines : List String) (st : Store) (k : String),
    k ∉ keys → load_cells keys lines st k = st k := by
  intro keys
  induction keys with
  | nil =>
    intro lines st k _
    rw [load_cells]
  | cons key rest ih =>
    intro lines st k hk
    have hne : k ≠ key := fun h => hk (h ▸ List.mem_cons_self _ _)
    rw [load_cells]
    cases hpc : parseCell (lines.headD "") with
    | none =>
      simp only [hpc]
      exact ih lines.tail st k (fun h => hk (List.mem_cons_of_mem _ h))
    | some d =>
      simp only [hpc]
      rw [ih lines.tail _ k (fun h => hk (List.mem_cons_of_mem _ h))]
      exact setDom_other st key k {d} hne

theorem load_cells_missing : ∀ (u keys lines : List String) (k : String)
    (w : List String) (st : Store), keys = u ++ k :: w → keys.Nodup →
    lines.length ≤ u.length → load_cells keys lines st k = st k := by
  intro u
  induction u with
  | nil =>
    intro keys lines k w st hkeys hnd hlen
    subst hkeys
    have hlines : lines = [] := List.eq_nil_of_length_eq_zero (Nat.le_zero.mp hlen)
    subst hlines
    rw [List.nil_append]
    rw [load_cells]
    have hpc : parseCell (([] : List String).headD "") = none := rfl
    simp only [hpc]
    rw [List.nil_append] at hnd
    exact load_cells_untouched w [] st k (List.nodup_cons.mp hnd).1
  | cons a u ih =>
    intro keys lines k w st hkeys hnd hlen
    subst hkeys
    have hka : k ≠ a := by
      have ha := (List.nodup_cons.mp hnd).1
      intro h
      subst h
      exact ha (List.mem_append_right _ (List.mem_cons_self _ _))
    have hnd2 : (u ++ k :: w).Nodup := (List.nodup_cons.mp hnd).2
    have hlen2 : lines.tail.length ≤ u.length := by
      rw [List.length_tail]
      rw [List.length_cons] at hlen
      omega
    rw [List.cons_append, load_cells]
    cases hpc : parseCell (lines.headD "") with
    | none =>
      simp only [hpc]
      exact ih _ lines.tail k w st rfl hnd2 hlen2
    | some d =>
      simp only [hpc]
      rw [ih _ lines.tail k w (setDom st a {d}) rfl hnd2 hlen2]
      exact setDom_other st a k {d} hka

theorem cell_keys_nodup : cell_keys.Nodup := by decide

/-! ### Claims -/

/-- C1 (code bug): the claimed specification of `is_solved` — true iff every
one of the 81 domains has exactly one candidate, hence false whenever a domain
is empty — is violated by the code: `is_solved` only tests `len(domain) > 1`,
so on a store whose cell A1 has an empty domain (and every other cell fixed)
it returns True, contradicting its own docstring ("todas las celdas tienen un
dominio de tamaño 1") and the spec. -/
theorem c1_is_solved_empty_domain_bug :
    is_solved c1Store = true ∧ c1Store "A1" = ∅ ∧ "A1" ∈ cell_keys := by
  refine ⟨by decide, by decide, by decide⟩

/-- C2 counterexample: a file with zero lines (fewer than the 81 required) is
not rejected — loading succeeds and cell A1 silently keeps the default full
domain {1..9}, refuting "wrong line counts are fatal" and "the loader never
silently substitutes the default domain". -/
theorem c2_counterexample :
    loadBoardFile (some []) = Except.ok (load_board []) ∧
    load_board [] "A1" = (List.range' 1 9).toFinset :=
  ⟨rfl, by decide⟩

/-- C2 amended: a missing board file is a fatal input error ("board not
found"), but a file with fewer than 81 lines is accepted without any error:
every cell whose line is past the end of the file silently keeps the default
full domain {1..9}, because `readline()` returns "" there. -/
theorem c2_amended_loader :
    loadBoardFile none = Except.error LoadErr.notFound ∧
    ∀ (lines u : List String) (k : String) (w : List String),
      cell_keys = u ++ k :: w → lines.length ≤ u.length →
      load_board lines k = (List.range' 1 9).toFinset := by
  refine ⟨rfl, ?_⟩
  intro lines u k w hsplit hlen
  rw [load_board, load_cells_missing u cell_keys lines k w init_doms hsplit cell_keys_nodup hlen]
  rfl

/-- C2 witness: the one-line file ["5"] is accepted and leaves cell B1, whose
line is missing, with the default full domain. -/
theorem c2_amended_loader_witness :
    loadBoardFile none = Except.error LoadErr.notFound ∧
    load_board ["5"] "B1" = (List.range' 1 9).toFinset :=
  ⟨c2_amended_loader.1,
    c2_amended_loader.2 ["5"] ["A1"] "B1" (cell_keys.drop 2) (by decide) (by decide)⟩

/-- C5: for every initial store the driver terminates — some number of passes
reaches a pass in which no registered (technique, group) pair changes any
domain, because a changing pass strictly shrinks the total domain size. -/
theorem c5_consistence_terminates (vb : Bool) (s : Store) :
    ∃ n, (runPass vb (passIter vb n s)).changed = false :=
  exists_noChange_pass (totalSize s) vb s (le_refl _)

/-- C6: every single application of any of the four techniques to any group
leaves every cell's domain a subset of its previous domain — no operation
ever enlarges a domain or reassigns it a superset. -/
theorem c6_techniques_monotone (t : TechTag) (vb : Bool) (g : List String) (s : Store)
    (k : String) : (applyTech t vb g s).store k ⊆ s k :=
  applyTech_mono t vb g s k

/-- C7: once `Consistence` has halted, re-running a full pass of every
registered (technique, group) pair over its output reports no change and
leaves every domain unchanged. -/
theorem c7_fixpoint_idempotent (vb : Bool) (s : Store) :
    (runPass vb (Consistence vb s).store).changed = false ∧
    (runPass vb (Consistence vb s).store).store = (Consistence vb s).store := by
  have h1 := consistenceN_fix (totalSize s + 1) vb s (Nat.lt_succ_self _)
  exact ⟨h1, runPass_nochange vb _ h1⟩

/-- C9: an empty domain is a valid, representable state, never a crash: the
driver (a total function in this embedding) still reaches its normal
no-change convergence, and the empty domain persists into the final store. -/
theorem c9_empty_domain_persists (vb : Bool) (s : Store) (c : String) (h : s c = ∅) :
    (Consistence vb s).store c = ∅ ∧
    (runPass vb (Consistence vb s).store).changed = false := by
  constructor
  · have hsub : (Consistence vb s).store c ⊆ s c := consistenceN_mono _ vb s c
    rw [h] at hsub
    exact Finset.subset_empty.mp hsub
  · exact consistenceN_fix _ vb s (Nat.lt_succ_self _)

/-- C9 witness: on the all-empty store, which has an empty domain at A1, the
driver converges and A1 is still empty afterwards. -/
theorem c9_empty_domain_persists_witness :
    (fun _ => (∅ : Finset ℕ)) "A1" = (∅ : Finset ℕ) ∧
    (Consistence false (fun _ => ∅)).store "A1" = ∅ ∧
    (runPass false (Consistence false (fun _ => ∅)).store).changed = false :=
  ⟨rfl, (c9_empty_domain_persists false (fun _ => ∅) "A1" rfl).1,
    (c9_empty_domain_persists false (fun _ => ∅) "A1" rfl).2⟩

/-- C3 counterexample: a single application of `_all_dif` to row 1 on
`c3Store` leaves the two distinct cells A1 and B1 both with singleton domain
{1}: cells that become singletons during the sweep are not revisited, so the
claimed soundness property fails for a single application. -/
theorem c3_counterexample :
    row1 ∈ varsGroups ∧ "A1" ∈ row1 ∧ "B1" ∈ row1 ∧ "A1" ≠ "B1" ∧
    (all_dif false row1 c3Store).store "A1" = {1} ∧
    (all_dif false row1 c3Store).store "B1" = {1} := by
  refine ⟨by decide, by decide, by decide, by decide, by decide, by decide⟩

/-- C3 amended: the soundness of Elimination holds at the technique's
fixpoint — whenever an application of `_all_dif` to a group reports no change
(in particular after the driver has converged), no two distinct cells of the
group have singleton domains holding the same value. -/
theorem c3_all_dif_fixpoint_sound (vb : Bool) (g : List String) (s : Store)
    (x y : String) (n : ℕ) (hc : (all_dif vb g s).changed = false)
    (hx : x ∈ g) (hy : y ∈ g) (hxy : x ≠ y)
    (hsx : (all_dif vb g s).store x = {n}) :
    (all_dif vb g s).store y ≠ {n} := by
  have hstore : (all_dif vb g s).store = s := all_dif_nochange vb g s hc
  rw [hstore] at hsx ⊢
  intro hsy
  obtain ⟨u, w, hg⟩ := List.append_of_mem hx
  have hfold : all_dif vb g s =
      w.foldl (allDifStep vb g)
        (allDifStep vb g (u.foldl (allDifStep vb g) ⟨s, false, 0⟩) x) := by
    rw [all_dif]
    conv_lhs => rw [hg]
    rw [List.foldl_append, List.foldl_cons, ← hg]
  have hc2 : (w.foldl (allDifStep vb g)
      (allDifStep vb g (u.foldl (allDifStep vb g) ⟨s, false, 0⟩) x)).changed = false := by
    rw [← hfold]
    exact hc
  have h3 := foldl_nochange (allDifStep vb g) w
    (fun a2 z _ => allDifStep_nochange vb g a2 z) _ hc2
  have h4 := allDifStep_nochange vb g (u.foldl (allDifStep vb g) ⟨s, false, 0⟩) x h3.2
  have h5 := foldl_nochange (allDifStep vb g) u
    (fun a2 z _ => allDifStep_nochange vb g a2 z) ⟨s, false, 0⟩ h4.2
  have ha1store : (u.foldl (allDifStep vb g) (⟨s, false, 0⟩ : TRes)).store = s := h5.1
  have hcard : ((u.foldl (allDifStep vb g) (⟨s, false, 0⟩ : TRes)).store x).card = 1 := by
    rw [ha1store, hsx]
    exact Finset.card_singleton _
  have hval : theVal ((u.foldl (allDifStep vb g) (⟨s, false, 0⟩ : TRes)).store x) = n := by
    rw [ha1store, hsx, theVal_singleton]
  have hstep : allDifStep vb g (u.foldl (allDifStep vb g) ⟨s, false, 0⟩) x =
      g.foldl (allDifInnerStep vb x
          (theVal ((u.foldl (allDifStep vb g) (⟨s, false, 0⟩ : TRes)).store x)))
        ⟨(u.foldl (allDifStep vb g) (⟨s, false, 0⟩ : TRes)).store,
          (u.foldl (allDifStep vb g) (⟨s, false, 0⟩ : TRes)).changed,
          (u.foldl (allDifStep vb g) (⟨s, false, 0⟩ : TRes)).prints +
            (if vb then 1 else 0)⟩ := by
    rw [allDifStep, if_pos hcard]
  rw [hval] at hstep
  obtain ⟨u2, w2, hg2⟩ := List.append_of_mem hy
  have hinner : allDifStep vb g (u.foldl (allDifStep vb g) ⟨s, false, 0⟩) x =
      w2.foldl (allDifInnerStep vb x n)
        (allDifInnerStep vb x n
          (u2.foldl (allDifInnerStep vb x n)
            ⟨(u.foldl (allDifStep vb g) (⟨s, false, 0⟩ : TRes)).store,
              (u.foldl (allDifStep vb g) (⟨s, false, 0⟩ : TRes)).changed,
              (u.foldl (allDifStep vb g) (⟨s, false, 0⟩ : TRes)).prints +
                (if vb then 1 else 0)⟩) y) := by
    rw [hstep]
    conv_lhs => rw [hg2]
    rw [List.foldl_append, List.foldl_cons, ← hg2]
  have hc3 : (w2.foldl (allDifInnerStep vb x n)
      (allDifInnerStep vb x n
        (u2.foldl (allDifInnerStep vb x n)
          ⟨(u.foldl (allDifStep vb g) (⟨s, false, 0⟩ : TRes)).store,
            (u.foldl (allDifStep vb g) (⟨s, false, 0⟩ : TRes)).changed,
            (u.foldl (allDifStep vb g) (⟨s, false, 0⟩ : TRes)).prints +
              (if vb then 1 else 0)⟩) y)).changed = false := by
    rw [← hinner]
    exact h3.2
  have h6 := foldl_nochange (allDifInnerStep vb x n) w2
    (fun a2 z _ => allDifInnerStep_nochange vb x n a2 z) _ hc3
  have h7 := foldl_nochange (allDifInnerStep vb x n) u2
    (fun a2 z _ => allDifInnerStep_nochange vb x n a2 z) _
    (allDifInnerStep_nochange vb x n _ y h6.2).2
  have hb1store : (u2.foldl (allDifInnerStep vb x n)
      (⟨(u.foldl (allDifStep vb g) (⟨s, false, 0⟩ : TRes)).store,
        (u.foldl (allDifStep vb g) (⟨s, false, 0⟩ : TRes)).changed,
        (u.foldl (allDifStep vb g) (⟨s, false, 0⟩ : TRes)).prints +
          (if vb then 1 else 0)⟩ : TRes)).store y = s y := by
    rw [h7.1]
    exact congrFun ha1store y
  have hcond : x ≠ y ∧ n ∈ (u2.foldl (allDifInnerStep vb x n)
      (⟨(u.foldl (allDifStep vb g) (⟨s, false, 0⟩ : TRes)).store,
        (u.foldl (allDifStep vb g) (⟨s, false, 0⟩ : TRes)).changed,
        (u.foldl (allDifStep vb g) (⟨s, false, 0⟩ : TRes)).prints +
          (if vb then 1 else 0)⟩ : TRes)).store y := by
    refine ⟨hxy, ?_⟩
    rw [hb1store, hsy]
    exact Finset.mem_singleton_self n
  have hfire : (allDifInnerStep vb x n
      (u2.foldl (allDifInnerStep vb x n)
        ⟨(u.foldl (allDifStep vb g) (⟨s, false, 0⟩ : TRes)).store,
          (u.foldl (allDifStep vb g) (⟨s, false, 0⟩ : TRes)).changed,
          (u.foldl (allDifStep vb g) (⟨s, false, 0⟩ : TRes)).prints +
            (if vb then 1 else 0)⟩) y).changed = true := by
    rw [allDifInnerStep, if_pos hcond]
  exact absurd (h6.2.symm.trans hfire) Bool.false_ne_true

/-- C3 witness: on the row-1 store of nine distinct singletons, `_all_dif`
reports no change, A1 holds {1}, and by the theorem B1 does not hold {1}. -/
theorem c3_all_dif_fixpoint_sound_witness :
    (all_dif false row1 c3FixStore).changed = false ∧
    (all_dif false row1 c3FixStore).store "A1" = {1} ∧
    (all_dif false row1 c3FixStore).store "B1" ≠ {1} :=
  ⟨by decide, by decide,
    c3_all_dif_fixpoint_sound false row1 c3FixStore "A1" "B1" 1 (by decide)
      (by decide) (by decide) (by decide) (by decide)⟩

/-! ### Lemmas for the hidden-single analysis of `_exc_value` -/

theorem filter_eq_singleton_of_nodup {α : Type} (p : α → Bool)
    (l : List α) (a : α) (hnd : l.Nodup) (ha : a ∈ l)
    (hp : ∀ b ∈ l, p b = true ↔ b = a) : l.filter p = [a] := by
  induction l with
  | nil => cases ha
  | cons c t ih =>
    rw [List.filter_cons]
    rcases List.mem_cons.mp ha with heq | hat
    · rw [if_pos ((hp c (List.mem_cons_self _ _)).mpr heq.symm)]
      have ht : t.filter p = [] := by
        rw [List.filter_eq_nil_iff]
        intro b hb hpb
        have hbc : b = a := (hp b (List.mem_cons_of_mem _ hb)).mp hpb
        rw [hbc, heq] at hb
        exact (List.nodup_cons.mp hnd).1 hb
      rw [ht, heq]
    · have hpc : p c = false := by
        cases hpceq : p c with
        | false => rfl
        | true =>
          exfalso
          have hbc := (hp c (List.mem_cons_self _ _)).mp hpceq
          rw [← hbc] at hat
          exact (List.nodup_cons.mp hnd).1 hat
      rw [if_neg (by rw [hpc]; exact Bool.false_ne_true)]
      exact ih (List.nodup_cons.mp hnd).2 hat (fun b hb => hp b (List.mem_cons_of_mem _ hb))

theorem excStep_keeps_singleton (vb : Bool) (g : List String) (a : TRes) (num : ℕ)
    (x : String) (hcard : (a.store x).card = 1) :
    (excStep vb g a num).store x = a.store x := by
  rw [excStep]
  rcases hf : g.filter (fun y => num ∈ a.store y) with _ | ⟨t, _ | ⟨u2, rest⟩⟩
  · rw [excApply]
  · rw [excApply]
    split
    · next h1c =>
      by_cases hxt : x = t
      · subst hxt
        rw [hcard] at h1c
        exact absurd h1c (lt_irrefl 1)
      · exact setDom_other _ _ _ _ hxt
    · rfl
  · rw [excApply]

theorem excStep_inv (vb : Bool) (g : List String) (s : Store) (x : String) (v : ℕ)
    (a : TRes) (n : ℕ) (hn : n < v) :
    ((a.store x = s x ∧ ∀ y ∈ g, y ≠ x → v ∉ a.store y) ∨
      (∃ w, w ∈ s x ∧ w ≤ v ∧ a.store x = {w})) →
    (((excStep vb g a n).store x = s x ∧
        ∀ y ∈ g, y ≠ x → v ∉ (excStep vb g a n).store y) ∨
      (∃ w, w ∈ s x ∧ w ≤ v ∧ (excStep vb g a n).store x = {w})) := by
  intro hq
  rcases hq with ⟨h1, h2⟩ | ⟨w, hw1, hw2, hw3⟩
  · rw [excStep]
    rcases hf : g.filter (fun y => n ∈ a.store y) with _ | ⟨t, _ | ⟨u2, rest⟩⟩
    · rw [excApply]
      exact Or.inl ⟨h1, h2⟩
    · have ht : t ∈ g.filter (fun y => n ∈ a.store y) := by
        rw [hf]
        exact List.mem_cons_self _ _
      have hnt : n ∈ a.store t := by
        have := (List.mem_filter.mp ht).2
        simpa using this
      rw [excApply]
      split
      · by_cases hxt : t = x
        · subst hxt
          refine Or.inr ⟨n, ?_, le_of_lt hn, setDom_same _ _ _⟩
          rw [← h1]
          exact hnt
        · refine Or.inl ⟨?_, ?_⟩
          · show setDom a.store t {n} x = s x
            rw [setDom_other _ _ _ _ (fun h => hxt h.symm)]
            exact h1
          · intro y hy hyx
            by_cases hyt : y = t
            · subst hyt
              show v ∉ setDom a.store y {n} y
              rw [setDom_same]
              intro hmem
              rw [Finset.mem_singleton] at hmem
              omega
            · show v ∉ setDom a.store t {n} y
              rw [setDom_other _ _ _ _ hyt]
              exact h2 y hy hyx
      · exact Or.inl ⟨h1, h2⟩
    · rw [excApply]
      exact Or.inl ⟨h1, h2⟩
  · have hc1 : (a.store x).card = 1 := by
      rw [hw3]
      exact Finset.card_singleton _
    exact Or.inr ⟨w, hw1, hw2,
      (excStep_keeps_singleton vb g a n x hc1).trans hw3⟩

theorem excStep_at_v (vb : Bool) (g : List String) (s : Store) (x : String) (v : ℕ)
    (hnd : g.Nodup) (hx : x ∈ g) (hcard : 1 < (s x).card) (hvx : v ∈ s x)
    (a : TRes) (h1 : a.store x = s x) (h2 : ∀ y ∈ g, y ≠ x → v ∉ a.store y) :
    (excStep vb g a v).store x = {v} := by
  have hfilter : g.filter (fun y => v ∈ a.store y) = [x] := by
    apply filter_eq_singleton_of_nodup _ g x hnd hx
    intro b hb
    constructor
    · intro hpb
      by_contra hbx
      exact h2 b hb hbx (by simpa using hpb)
    · intro hbx
      subst hbx
      simp only [decide_eq_true_eq]
      rw [h1]
      exact hvx
  rw [excStep, hfilter, excApply]
  split
  · exact setDom_same _ _ _
  · next hle =>
    exfalso
    rw [h1] at hle
    exact hle hcard

/-- C4 counterexample: two scenarios refute the claim as stated.  On
`c4StoreA`, value 5 lies in the candidate set of exactly one non-fixed cell
(B1), yet `_exc_value` leaves B1 at {5, 6}, because the already-fixed
A1 = {5} also counts toward the occurrence total.  On `c4StoreB`, 5 again
lies only in the non-fixed B1, yet the same call first fixes B1 to {3}
(3 is also exclusive to B1 and is tried first), so B1 ends at {3}, not {5}. -/
theorem c4_counterexample :
    (row1.filter (fun c => 5 ∈ c4StoreA c ∧ 1 < (c4StoreA c).card) = ["B1"] ∧
      (exc_value false row1 c4StoreA).store "B1" ≠ {5}) ∧
    (row1.filter (fun c => 5 ∈ c4StoreB c ∧ 1 < (c4StoreB c).card) = ["B1"] ∧
      (exc_value false row1 c4StoreB).store "B1" ≠ {5}) := by
  refine ⟨⟨by decide, by decide⟩, ⟨by decide, by decide⟩⟩

/-- C4 amended: if value v (1 ≤ v ≤ 9) occurs in the domain of exactly one
cell x of a duplicate-free group — fixed cells included in the count — and x
is not fixed, then one application of `_exc_value` fixes x: afterwards x's
domain is {w} for some previous candidate w ≤ v of x (w = v unless a smaller
value that had become exclusive to x was fixed into it earlier in the same
call). -/
theorem c4_exc_value_amended (vb : Bool) (g : List String) (s : Store) (x : String)
    (v : ℕ) (hnd : g.Nodup) (hx : x ∈ g) (hv1 : 1 ≤ v) (hv9 : v ≤ 9)
    (hvx : v ∈ s x) (hcard : 1 < (s x).card)
    (hexc : ∀ y ∈ g, y ≠ x → v ∉ s y) :
    ∃ w, w ∈ s x ∧ w ≤ v ∧ (exc_value vb g s).store x = {w} := by
  have hm : (1 : ℕ) + (v - 1) = v := by omega
  have hnm : (10 - v) + (v - 1) = 9 := by omega
  have hn9 : (10 - v) = (9 - v) + 1 := by omega
  have hsplit : List.range' 1 9 = List.range' 1 (v - 1) ++ v :: List.range' (v + 1) (9 - v) := by
    have h := List.range'_append_1 1 (v - 1) (10 - v)
    rw [hm, hnm] at h
    rw [← h, hn9, List.range'_succ]
  rw [exc_value, hsplit, List.foldl_append, List.foldl_cons]
  have hQ := foldl_inv (excStep vb g)
    (fun st => (st x = s x ∧ ∀ y ∈ g, y ≠ x → v ∉ st y) ∨
      (∃ w, w ∈ s x ∧ w ≤ v ∧ st x = {w}))
    (List.range' 1 (v - 1))
    (fun a n hnmem hq => by
      have hnv : n < v := by
        have := (List.mem_range'_1.mp hnmem).2
        omega
      exact excStep_inv vb g s x v a n hnv hq)
    ⟨s, false, 0⟩ (Or.inl ⟨rfl, hexc⟩)
  have hQ2 : ∃ w, w ∈ s x ∧ w ≤ v ∧
      (excStep vb g ((List.range' 1 (v - 1)).foldl (excStep vb g) ⟨s, false, 0⟩) v).store x
        = {w} := by
    rcases hQ with ⟨h1, h2⟩ | ⟨w, hw1, hw2, hw3⟩
    · exact ⟨v, hvx, le_refl v, excStep_at_v vb g s x v hnd hx hcard hvx _ h1 h2⟩
    · refine ⟨w, hw1, hw2, ?_⟩
      rw [excStep_keeps_singleton vb g _ v x (by rw [hw3]; exact Finset.card_singleton _)]
      exact hw3
  obtain ⟨w, hw1, hw2, hw3⟩ := hQ2
  refine ⟨w, hw1, hw2, ?_⟩
  exact foldl_inv (excStep vb g) (fun st => st x = {w})
    (List.range' (v + 1) (9 - v))
    (fun a n _ hq => by
      have hq2 : a.store x = {w} := hq
      show (excStep vb g a n).store x = {w}
      rw [excStep_keeps_singleton vb g a n x (by rw [hq2]; exact Finset.card_singleton _)]
      exact hq2)
    _ hw3

/-- C4 witness: on `c4WitStore`, 5 occurs in no row-1 cell except the unfixed
B1; applying the theorem fixes B1 to a singleton. -/
theorem c4_exc_value_amended_witness :
    row1.Nodup ∧ "B1" ∈ row1 ∧ (5 : ℕ) ∈ c4WitStore "B1" ∧ 1 < (c4WitStore "B1").card ∧
    (∀ y ∈ row1, y ≠ "B1" → (5 : ℕ) ∉ c4WitStore y) ∧
    ∃ w, w ∈ c4WitStore "B1" ∧ w ≤ 5 ∧
      (exc_value false row1 c4WitStore).store "B1" = {w} :=
  ⟨by decide, by decide, by decide, by decide, by decide,
    c4_exc_value_amended false row1 c4WitStore "B1" 5 (by decide) (by decide)
      (by decide) (by decide) (by decide) (by decide) (by decide)⟩

/-! ### Lemmas for the naked-pair analysis of `_naked_subsets` -/

theorem buildDM_from_entry (s : Store) (x y : String) (d : Finset ℕ)
    (hdx : s x = d) (hdy : s y = d) (hd : 1 < d.card) :
    ∀ (l : List String), (∀ c ∈ l, c ≠ x → c ≠ y → (s c).card ≤ 1) →
      ∀ (vs : List String),
        l.foldl (fun m v => if 1 < (s v).card then addToMap m (s v) v else m) [(d, vs)]
          = [(d, vs ++ l.filter (fun c => c = x ∨ c = y))] := by
  intro l
  induction l with
  | nil =>
    intro _ vs
    rw [List.foldl_nil, List.filter_nil, List.append_nil]
  | cons c t ih =>
    intro hoth vs
    have hoth2 : ∀ c2 ∈ t, c2 ≠ x → c2 ≠ y → (s c2).card ≤ 1 :=
      fun c2 h2 => hoth c2 (List.mem_cons_of_mem _ h2)
    rw [List.foldl_cons, List.filter_cons]
    by_cases hc : c = x ∨ c = y
    · have hsc : s c = d := by
        rcases hc with rfl | rfl
        · exact hdx
        · exact hdy
      rw [if_pos (by rw [hsc]; exact hd), hsc]
      have haddm : addToMap [(d, vs)] d c = [(d, vs ++ [c])] := by
        rw [addToMap, if_pos rfl]
      rw [haddm, ih hoth2 (vs ++ [c])]
      rw [if_pos (decide_eq_true hc)]
      simp [List.append_assoc]
    · push_neg at hc
      have hle := hoth c (List.mem_cons_self _ _) hc.1 hc.2
      rw [if_neg (by omega)]
      rw [if_neg (by simp [hc.1, hc.2])]
      exact ih hoth2 vs

theorem buildDM_from_nil (s : Store) (x y : String) (d : Finset ℕ)
    (hdx : s x = d) (hdy : s y = d) (hd : 1 < d.card) :
    ∀ (l : List String), (∀ c ∈ l, c ≠ x → c ≠ y → (s c).card ≤ 1) →
      l.filter (fun c => c = x ∨ c = y) ≠ [] →
      l.foldl (fun m v => if 1 < (s v).card then addToMap m (s v) v else m) []
        = [(d, l.filter (fun c => c = x ∨ c = y))] := by
  intro l
  induction l with
  | nil =>
    intro _ hne
    exact absurd rfl hne
  | cons c t ih =>
    intro hoth hne
    have hoth2 : ∀ c2 ∈ t, c2 ≠ x → c2 ≠ y → (s c2).card ≤ 1 :=
      fun c2 h2 => hoth c2 (List.mem_cons_of_mem _ h2)
    rw [List.foldl_cons]
    by_cases hc : c = x ∨ c = y
    · have hsc : s c = d := by
        rcases hc with rfl | rfl
        · exact hdx
        · exact hdy
      rw [if_pos (by rw [hsc]; exact hd), hsc]
      have haddm : addToMap [] d c = [(d, [c])] := rfl
      rw [haddm, buildDM_from_entry s x y d hdx hdy hd t hoth2 [c]]
      rw [List.filter_cons, if_pos (decide_eq_true hc)]
      rfl
    · push_neg at hc
      have hle := hoth c (List.mem_cons_self _ _) hc.1 hc.2
      rw [if_neg (by omega)]
      rw [List.filter_cons, if_neg (by simp [hc.1, hc.2])] at hne ⊢
      exact ih hoth2 hne

theorem nakedRemoveStep_other (vb : Bool) (d : Finset ℕ) (cells : List String)
    (a : TRes) (c x : String) (h : x ≠ c) :
    (nakedRemoveStep vb d cells a c).store x = a.store x := by
  rw [nakedRemoveStep]
  split
  · rfl
  · split
    · rfl
    · exact setDom_other _ _ _ _ h

theorem nakedRemoveStep_self_in (vb : Bool) (d : Finset ℕ) (cells : List String)
    (a : TRes) (c : String) (h : c ∈ cells) :
    nakedRemoveStep vb d cells a c = a := by
  rw [nakedRemoveStep, if_pos h]

/-- C8: on a duplicate-free group whose only two unfixed cells x and y both
hold exactly {2, 5}, one application of `_naked_subsets` leaves x and y
untouched and removes 2 and 5 from every other cell of the group. -/
theorem c8_naked_pair (vb : Bool) (g : List String) (s : Store) (x y : String)
    (hnd : g.Nodup) (hx : x ∈ g) (hy : y ∈ g) (hxy : x ≠ y)
    (hdx : s x = {2, 5}) (hdy : s y = {2, 5})
    (hoth : ∀ c ∈ g, c ≠ x → c ≠ y → (s c).card ≤ 1) :
    ((naked_subsets vb g s).store x = {2, 5} ∧ (naked_subsets vb g s).store y = {2, 5}) ∧
    ∀ c ∈ g, c ≠ x → c ≠ y →
      2 ∉ (naked_subsets vb g s).store c ∧ 5 ∉ (naked_subsets vb g s).store c := by
  have hcard25 : 1 < ({2, 5} : Finset ℕ).card := by decide
  have hcellsmem : ∀ c, c ∈ g.filter (fun c => c = x ∨ c = y) ↔ (c = x ∨ c = y) := by
    intro c
    rw [List.mem_filter]
    constructor
    · intro h
      simpa using h.2
    · intro h
      refine ⟨?_, by simpa using h⟩
      rcases h with rfl | rfl
      · exact hx
      · exact hy
  have hfe : g.filter (fun c => c = x ∨ c = y) ≠ [] := by
    intro h
    have hxmem := (hcellsmem x).mpr (Or.inl rfl)
    rw [h] at hxmem
    cases hxmem
  have hmap : buildDomainMap g s = [({2, 5}, g.filter (fun c => c = x ∨ c = y))] := by
    rw [buildDomainMap]
    exact buildDM_from_nil s x y {2, 5} hdx hdy hcard25 g hoth hfe
  have hlen : (g.filter (fun c => c = x ∨ c = y)).length = 2 := by
    have hndf : (g.filter (fun c => decide (c = x ∨ c = y))).Nodup := hnd.filter _
    rw [← List.toFinset_card_of_nodup hndf]
    have hset : (g.filter (fun c => decide (c = x ∨ c = y))).toFinset = {x, y} := by
      ext c
      rw [List.mem_toFinset, hcellsmem]
      simp
    rw [hset]
    exact Finset.card_pair hxy
  have hns : naked_subsets vb g s =
      g.foldl (nakedRemoveStep vb {2, 5} (g.filter (fun c => c = x ∨ c = y)))
        ⟨s, false, 0 + (if vb then 3 else 0)⟩ := by
    rw [naked_subsets, hmap, List.foldl_cons, List.foldl_nil, nakedEntryStep]
    rw [if_pos ⟨by rw [hlen]; rfl, hcard25⟩]
  have hkeep : ∀ z, (z = x ∨ z = y) →
      (naked_subsets vb g s).store z = s z := by
    intro z hz
    rw [hns]
    exact foldl_untouched _ z g
      (fun a c hcg => by
        by_cases hzc : z = c
        · subst hzc
          rw [nakedRemoveStep_self_in vb _ _ a z ((hcellsmem z).mpr hz)]
        · exact nakedRemoveStep_other vb _ _ a c z hzc)
      ⟨s, false, 0 + (if vb then 3 else 0)⟩
  refine ⟨⟨(hkeep x (Or.inl rfl)).trans hdx, (hkeep y (Or.inr rfl)).trans hdy⟩, ?_⟩
  intro c hc hcx hcy
  obtain ⟨u, w, hguw⟩ := List.append_of_mem hc
  have hcnotin : c ∉ g.filter (fun c2 => c2 = x ∨ c2 = y) := by
    rw [hcellsmem]
    rintro (rfl | rfl)
    · exact hcx rfl
    · exact hcy rfl
  have hfoldsplit : naked_subsets vb g s =
      w.foldl (nakedRemoveStep vb {2, 5} (g.filter (fun c2 => c2 = x ∨ c2 = y)))
        (nakedRemoveStep vb {2, 5} (g.filter (fun c2 => c2 = x ∨ c2 = y))
          (u.foldl (nakedRemoveStep vb {2, 5} (g.filter (fun c2 => c2 = x ∨ c2 = y)))
            ⟨s, false, 0 + (if vb then 3 else 0)⟩) c) := by
    rw [hns]
    conv_lhs => rw [hguw]
    rw [List.foldl_append, List.foldl_cons, ← hguw]
  have hafter : ∀ z : ℕ, z ∈ ({2, 5} : Finset ℕ) →
      z ∉ (nakedRemoveStep vb {2, 5} (g.filter (fun c2 => c2 = x ∨ c2 = y))
        (u.foldl (nakedRemoveStep vb {2, 5} (g.filter (fun c2 => c2 = x ∨ c2 = y)))
          ⟨s, false, 0 + (if vb then 3 else 0)⟩) c).store c := by
    intro z hz
    rw [nakedRemoveStep, if_neg hcnotin]
    by_cases hcase : (u.foldl (nakedRemoveStep vb {2, 5}
        (g.filter (fun c2 => c2 = x ∨ c2 = y)))
          (⟨s, false, 0 + (if vb then 3 else 0)⟩ : TRes)).store c ∩ ({2, 5} : Finset ℕ) = ∅
    · rw [if_pos hcase]
      intro hmem
      have hzin : z ∈ (u.foldl (nakedRemoveStep vb {2, 5}
          (g.filter (fun c2 => c2 = x ∨ c2 = y)))
            (⟨s, false, 0 + (if vb then 3 else 0)⟩ : TRes)).store c ∩ ({2, 5} : Finset ℕ) :=
        Finset.mem_inter.mpr ⟨hmem, hz⟩
      rw [hcase] at hzin
      cases hzin
    · rw [if_neg hcase]
      show z ∉ setDom _ c _ c
      rw [setDom_same]
      intro hmem
      rw [Finset.mem_sdiff] at hmem
      exact hmem.2 (Finset.mem_inter.mpr ⟨hmem.1, hz⟩)
  have hsub : ∀ k, (naked_subsets vb g s).store k ⊆
      (nakedRemoveStep vb {2, 5} (g.filter (fun c2 => c2 = x ∨ c2 = y))
        (u.foldl (nakedRemoveStep vb {2, 5} (g.filter (fun c2 => c2 = x ∨ c2 = y)))
          ⟨s, false, 0 + (if vb then 3 else 0)⟩) c).store k := by
    intro k
    rw [hfoldsplit]
    exact foldl_store_mono _ w
      (fun a v _ k2 => nakedRemoveStep_mono vb _ _ a v k2) _ k
  constructor
  · intro hmem
    exact hafter 2 (by decide) (hsub c hmem)
  · intro hmem
    exact hafter 5 (by decide) (hsub c hmem)

/-- C8 witness: row 1 with the naked pair {2, 5} in A1 and B1 and all other
cells fixed to 1; after `_naked_subsets`, A1 and B1 still hold {2, 5} and no
other cell holds 2 or 5. -/
theorem c8_naked_pair_witness :
    row1.Nodup ∧ "A1" ∈ row1 ∧ "B1" ∈ row1 ∧
    c8WitStore "A1" = {2, 5} ∧ c8WitStore "B1" = {2, 5} ∧
    (((naked_subsets false row1 c8WitStore).store "A1" = {2, 5} ∧
        (naked_subsets false row1 c8WitStore).store "B1" = {2, 5}) ∧
      ∀ c ∈ row1, c ≠ "A1" → c ≠ "B1" →
        2 ∉ (naked_subsets false row1 c8WitStore).store c ∧
        5 ∉ (naked_subsets false row1 c8WitStore).store c) :=
  ⟨by decide, by decide, by decide, by decide, by decide,
    c8_naked_pair false row1 c8WitStore "A1" "B1" (by decide) (by decide) (by decide)
      (by decide) (by decide) (by decide) (by decide)⟩

/-! ### Verbose-mode noninterference -/

theorem allDifInnerStep_rel (vb1 vb2 : Bool) (x : String) (v : ℕ) (a1 a2 : TRes)
    (y : String) (hst : a1.store = a2.store) (hch : a1.changed = a2.changed) :
    (allDifInnerStep vb1 x v a1 y).store = (allDifInnerStep vb2 x v a2 y).store ∧
    (allDifInnerStep vb1 x v a1 y).changed = (allDifInnerStep vb2 x v a2 y).changed := by
  rw [allDifInnerStep, allDifInnerStep, hst]
  by_cases hcond : x ≠ y ∧ v ∈ a2.store y
  · rw [if_pos hcond, if_pos hcond]
    exact ⟨rfl, rfl⟩
  · rw [if_neg hcond, if_neg hcond]
    exact ⟨hst, hch⟩

theorem allDifStep_rel (vb1 vb2 : Bool) (g : List String) (a1 a2 : TRes) (x : String)
    (hst : a1.store = a2.store) (hch : a1.changed = a2.changed) :
    (allDifStep vb1 g a1 x).store = (allDifStep vb2 g a2 x).store ∧
    (allDifStep vb1 g a1 x).changed = (allDifStep vb2 g a2 x).changed := by
  rw [allDifStep, allDifStep, hst]
  by_cases hcard : (a2.store x).card = 1
  · rw [if_pos hcard, if_pos hcard]
    exact foldl_rel _ _ g
      (fun b1 b2 y _ h1 h2 => allDifInnerStep_rel vb1 vb2 x (theVal (a2.store x)) b1 b2 y h1 h2)
      ⟨a2.store, a1.changed, a1.prints + (if vb1 then 1 else 0)⟩
      ⟨a2.store, a2.changed, a2.prints + (if vb2 then 1 else 0)⟩ rfl hch
  · rw [if_neg hcard, if_neg hcard]
    exact ⟨hst, hch⟩

theorem excApply_rel (vb1 vb2 : Bool) (a1 a2 : TRes) (cells : List String) (num : ℕ)
    (hst : a1.store = a2.store) (hch : a1.changed = a2.changed) :
    (excApply vb1 a1 cells num).store = (excApply vb2 a2 cells num).store ∧
    (excApply vb1 a1 cells num).changed = (excApply vb2 a2 cells num).changed := by
  cases cells with
  | nil =>
    rw [excApply, excApply]
    exact ⟨hst, hch⟩
  | cons t rest =>
    cases rest with
    | nil =>
      rw [excApply, excApply, hst]
      by_cases hcard : 1 < (a2.store t).card
      · rw [if_pos hcard, if_pos hcard]
        exact ⟨rfl, rfl⟩
      · rw [if_neg hcard, if_neg hcard]
        exact ⟨hst, hch⟩
    | cons u rest2 =>
      rw [excApply, excApply]
      exact ⟨hst, hch⟩

theorem excStep_rel (vb1 vb2 : Bool) (g : List String) (a1 a2 : TRes) (num : ℕ)
    (hst : a1.store = a2.store) (hch : a1.changed = a2.changed) :
    (excStep vb1 g a1 num).store = (excStep vb2 g a2 num).store ∧
    (excStep vb1 g a1 num).changed = (excStep vb2 g a2 num).changed := by
  rw [excStep, excStep, hst]
  exact excApply_rel vb1 vb2 a1 a2 _ num hst hch

theorem nakedRemoveStep_rel (vb1 vb2 : Bool) (d : Finset ℕ) (cells : List String)
    (a1 a2 : TRes) (v : String)
    (hst : a1.store = a2.store) (hch : a1.changed = a2.changed) :
    (nakedRemoveStep vb1 d cells a1 v).store = (nakedRemoveStep vb2 d cells a2 v).store ∧
    (nakedRemoveStep vb1 d cells a1 v).changed = (nakedRemoveStep vb2 d cells a2 v).changed := by
  rw [nakedRemoveStep, nakedRemoveStep, hst]
  by_cases hin : v ∈ cells
  · rw [if_pos hin, if_pos hin]
    exact ⟨hst, hch⟩
  · rw [if_neg hin, if_neg hin]
    by_cases hvd : a2.store v ∩ d = ∅
    · rw [if_pos hvd, if_pos hvd]
      exact ⟨hst, hch⟩
    · rw [if_neg hvd, if_neg hvd]
      exact ⟨rfl, rfl⟩

theorem nakedEntryStep_rel (vb1 vb2 : Bool) (g : List String) (a1 a2 : TRes)
    (e : Finset ℕ × List String)
    (hst : a1.store = a2.store) (hch : a1.changed = a2.changed) :
    (nakedEntryStep vb1 g a1 e).store = (nakedEntryStep vb2 g a2 e).store ∧
    (nakedEntryStep vb1 g a1 e).changed = (nakedEntryStep vb2 g a2 e).changed := by
  rw [nakedEntryStep, nakedEntryStep, hst]
  by_cases hcond : e.1.card = e.2.length ∧ 1 < e.1.card
  · rw [if_pos hcond, if_pos hcond]
    exact foldl_rel _ _ g
      (fun b1 b2 v _ h1 h2 => nakedRemoveStep_rel vb1 vb2 e.1 e.2 b1 b2 v h1 h2)
      ⟨a2.store, a1.changed, a1.prints + (if vb1 then 3 else 0)⟩
      ⟨a2.store, a2.changed, a2.prints + (if vb2 then 3 else 0)⟩ rfl hch
  · rw [if_neg hcond, if_neg hcond]
    exact ⟨hst, hch⟩

theorem hiddenCellStep_rel (vb1 vb2 : Bool) (ns : Finset ℕ) (acc1 acc2 : TRes × Bool)
    (v : String) (hst : acc1.1.store = acc2.1.store)
    (hch : acc1.1.changed = acc2.1.changed) :
    (hiddenCellStep vb1 ns acc1 v).1.store = (hiddenCellStep vb2 ns acc2 v).1.store ∧
    (hiddenCellStep vb1 ns acc1 v).1.changed = (hiddenCellStep vb2 ns acc2 v).1.changed ∧
    (hiddenCellStep vb1 ns acc1 v).2 = (hiddenCellStep vb2 ns acc2 v).2 ∨
    (hiddenCellStep vb1 ns acc1 v).1.store = (hiddenCellStep vb2 ns acc2 v).1.store ∧
    (hiddenCellStep vb1 ns acc1 v).1.changed = (hiddenCellStep vb2 ns acc2 v).1.changed ∧
    (hiddenCellStep vb1 ns acc1 v).2 = acc1.2 ∧ (hiddenCellStep vb2 ns acc2 v).2 = acc2.2 := by
  rw [hiddenCellStep, hiddenCellStep, hst]
  by_cases hvd : acc2.1.store v \ ns = ∅
  · rw [if_pos hvd, if_pos hvd]
    exact Or.inr ⟨hst, hch, rfl, rfl⟩
  · rw [if_neg hvd, if_neg hvd]
    exact Or.inl ⟨rfl, rfl, rfl⟩

theorem hiddenCells_rel (vb1 vb2 : Bool) (ns : Finset ℕ) :
    ∀ (l : List String) (acc1 acc2 : TRes × Bool),
      acc1.1.store = acc2.1.store → acc1.1.changed = acc2.1.changed → acc1.2 = acc2.2 →
      (l.foldl (hiddenCellStep vb1 ns) acc1).1.store =
          (l.foldl (hiddenCellStep vb2 ns) acc2).1.store ∧
        (l.foldl (hiddenCellStep vb1 ns) acc1).1.changed =
          (l.foldl (hiddenCellStep vb2 ns) acc2).1.changed := by
  intro l
  induction l with
  | nil =>
    intro acc1 acc2 hst hch _
    rw [List.foldl_nil, List.foldl_nil]
    exact ⟨hst, hch⟩
  | cons v rest ih =>
    intro acc1 acc2 hst hch hfl
    rw [List.foldl_cons, List.foldl_cons]
    have hflag : (hiddenCellStep vb1 ns acc1 v).2 = (hiddenCellStep vb2 ns acc2 v).2 := by
      rw [hiddenCellStep, hiddenCellStep, hst]
      by_cases hvd : acc2.1.store v \ ns = ∅
      · rw [if_pos hvd, if_pos hvd]
        exact hfl
      · rw [if_neg hvd, if_neg hvd]
    rcases hiddenCellStep_rel vb1 vb2 ns acc1 acc2 v hst hch with ⟨h1, h2, _⟩ | ⟨h1, h2, _⟩
    · exact ih _ _ h1 h2 hflag
    · exact ih _ _ h1 h2 hflag

theorem hiddenComboStep_rel (vb1 vb2 : Bool) (g : List String) (s0 : Store)
    (a1 a2 : TRes) (combo : List ℕ)
    (hst : a1.store = a2.store) (hch : a1.changed = a2.changed) :
    (hiddenComboStep vb1 g s0 a1 combo).store = (hiddenComboStep vb2 g s0 a2 combo).store ∧
    (hiddenComboStep vb1 g s0 a1 combo).changed =
      (hiddenComboStep vb2 g s0 a2 combo).changed := by
  simp only [hiddenComboStep]
  split
  · exact hiddenCells_rel vb1 vb2 combo.toFinset _ (a1, false) (a2, false) hst hch rfl
  · exact ⟨hst, hch⟩

theorem applyTech_rel (t : TechTag) (vb1 vb2 : Bool) (g : List String) (s : Store) :
    (applyTech t vb1 g s).store = (applyTech t vb2 g s).store ∧
    (applyTech t vb1 g s).changed = (applyTech t vb2 g s).changed := by
  cases t
  · exact foldl_rel _ _ g (fun a1 a2 x _ h1 h2 => allDifStep_rel vb1 vb2 g a1 a2 x h1 h2)
      ⟨s, false, 0⟩ ⟨s, false, 0⟩ rfl rfl
  · exact foldl_rel _ _ (List.range' 1 9)
      (fun a1 a2 n _ h1 h2 => excStep_rel vb1 vb2 g a1 a2 n h1 h2)
      ⟨s, false, 0⟩ ⟨s, false, 0⟩ rfl rfl
  · exact foldl_rel _ _ (buildDomainMap g s)
      (fun a1 a2 e _ h1 h2 => nakedEntryStep_rel vb1 vb2 g a1 a2 e h1 h2)
      ⟨s, false, 0⟩ ⟨s, false, 0⟩ rfl rfl
  · exact foldl_rel _ _ (List.range' 2 3)
      (fun a1 a2 n _ h1 h2 => foldl_rel _ _ ((List.range' 1 9).sublistsLen n)
        (fun b1 b2 combo _ hb1 hb2 => hiddenComboStep_rel vb1 vb2 g s b1 b2 combo hb1 hb2)
        a1 a2 h1 h2)
      ⟨s, false, 0⟩ ⟨s, false, 0⟩ rfl rfl

theorem passStep_rel (vb1 vb2 : Bool) (a1 a2 : TRes) (pr : TechTag × List String)
    (hst : a1.store = a2.store) (hch : a1.changed = a2.changed) :
    (passStep vb1 a1 pr).store = (passStep vb2 a2 pr).store ∧
    (passStep vb1 a1 pr).changed = (passStep vb2 a2 pr).changed := by
  have h := applyTech_rel pr.1 vb1 vb2 pr.2 a1.store
  rw [hst] at h
  constructor
  · show (applyTech pr.1 vb1 pr.2 a1.store).store = (applyTech pr.1 vb2 pr.2 a2.store).store
    rw [hst]
    exact h.1
  · show ((applyTech pr.1 vb1 pr.2 a1.store).changed || a1.changed) =
      ((applyTech pr.1 vb2 pr.2 a2.store).changed || a2.changed)
    rw [hst, h.2, hch]

theorem runPass_rel (vb1 vb2 : Bool) (s : Store) :
    (runPass vb1 s).store = (runPass vb2 s).store ∧
    (runPass vb1 s).changed = (runPass vb2 s).changed :=
  foldl_rel _ _ constraintsList
    (fun a1 a2 pr _ h1 h2 => passStep_rel vb1 vb2 a1 a2 pr h1 h2)
    ⟨s, false, 0⟩ ⟨s, false, 0⟩ rfl rfl

theorem consistenceN_rel : ∀ (fuel : ℕ) (vb1 vb2 : Bool) (s : Store),
    (consistenceN fuel vb1 s).store = (consistenceN fuel vb2 s).store ∧
    (consistenceN fuel vb1 s).passes = (consistenceN fuel vb2 s).passes := by
  intro fuel
  induction fuel with
  | zero =>
    intro vb1 vb2 s
    exact ⟨rfl, rfl⟩
  | succ f ih =>
    intro vb1 vb2 s
    have hrs := (runPass_rel vb1 vb2 s).1
    have hrc := (runPass_rel vb1 vb2 s).2
    simp only [consistenceN]
    rw [← hrs, ← hrc]
    by_cases hch : (runPass vb1 s).changed = true
    · rw [if_pos hch, if_pos hch]
      constructor
      · show (consistenceN f vb1 (runPass vb1 s).store).store =
          (consistenceN f vb2 (runPass vb1 s).store).store
        exact (ih vb1 vb2 _).1
      · show (consistenceN f vb1 (runPass vb1 s).store).passes + 1 =
          (consistenceN f vb2 (runPass vb1 s).store).passes + 1
        rw [(ih vb1 vb2 _).2]
    · rw [if_neg hch, if_neg hch]
      exact ⟨rfl, rfl⟩

/-- C10: the verbose flag never influences any domain mutation, any
technique's changed signal, or the number of passes: the driver produces
identical final domains and pass counts with verbose on and off, and every
technique produces an identical store and changed flag for any two settings
of the flag (only the print count differs). -/
theorem c10_verbose_noninterference :
    (∀ s : Store, (Consistence true s).store = (Consistence false s).store ∧
      (Consistence true s).passes = (Consistence false s).passes) ∧
    ∀ (t : TechTag) (vb1 vb2 : Bool) (g : List String) (s : Store),
      (applyTech t vb1 g s).store = (applyTech t vb2 g s).store ∧
      (applyTech t vb1 g s).changed = (applyTech t vb2 g s).changed := by
  constructor
  · intro s
    exact ⟨(consistenceN_rel (totalSize s + 1) true false s).1,
      (consistenceN_rel (totalSize s + 1) true false s).2⟩
  · intro t vb1 vb2 g s
    exact applyTech_rel t vb1 vb2 g s

end Sudoku
